import Mathlib

/-!
# matchWords.cpp: affirmative / negative utterance matching

A shallow embedding of `src/utils/match_words/matchWords.cpp`.

* A `std::string` is the list of its bytes (`CStr`); string literals of the
  UTF-8 encoded source file are the UTF-8 bytes of their text (`utf8`).
* `tolower` is the function of the default "C" locale: only `A`..`Z` change.
* `strcasecmp` works on the `c_str()` views, so it stops at the first NUL byte.
* `std::getline` on the `std::istringstream` is modelled with the stream's
  buffer and its `eofbit` / `failbit`.
* `isSimilar` computes in binary32 as the source does. A `float` is
  represented by its exact rational value: the `size_t` operands are converted
  to `float` (`sizeToFloat`), their quotient is rounded to the nearest `float`,
  ties to even (`floatDiv`), the NaN of `0.0f / 0` is `none` and compares false
  with everything, and the default threshold is the `float` nearest to `0.8`,
  `13421773 / 2^24`.
* `rand()` is a sequence of values with a call counter (`RandState`); the
  pipeline is a function of that source and of whether the output file opens.
  The `QTextStream` writes the UTF-8 bytes of what is streamed into it, a line
  ending with a line feed.
-/

namespace MatchWords

/-- One `char` of a `std::string`, as its unsigned value. -/
abbrev Byte := Fin 256

/-- A `std::string`: a sequence of bytes, NUL bytes allowed. -/
abbrev CStr := List Byte

/-- UTF-8 encoding of one code point. -/
def utf8EncodeNat (n : Nat) : CStr :=
  if n < 0x80 then [Fin.ofNat n]
  else if n < 0x800 then [Fin.ofNat (0xC0 + n / 0x40), Fin.ofNat (0x80 + n % 0x40)]
  else if n < 0x10000 then
    [Fin.ofNat (0xE0 + n / 0x1000), Fin.ofNat (0x80 + n / 0x40 % 0x40),
     Fin.ofNat (0x80 + n % 0x40)]
  else
    [Fin.ofNat (0xF0 + n / 0x40000), Fin.ofNat (0x80 + n / 0x1000 % 0x40),
     Fin.ofNat (0x80 + n / 0x40 % 0x40), Fin.ofNat (0x80 + n % 0x40)]

/-- The bytes of a string literal of the source file. -/
def utf8 (s : String) : CStr := s.toList.flatMap (fun c => utf8EncodeNat c.toNat)

/-- The space character, the delimiter of `tokenize`. -/
def space : Byte := 32

/-- C `tolower` in the "C" locale. -/
def tolower (c : Byte) : Byte :=
  if 65 ≤ c ∧ c ≤ 90 then c + 32 else c

/-- POSIX `strcasecmp` on the NUL-terminated views of two strings: the
difference of the first pair of bytes that differ after `tolower`, `0` when
both views end together. The end of a list is the terminating NUL. -/
def strcasecmp : CStr → CStr → Int
  | [], [] => 0
  | [], c2 :: _ => (tolower 0).val - (tolower c2).val
  | c1 :: _, [] => (tolower c1).val - (tolower 0).val
  | c1 :: r1, c2 :: r2 =>
    if tolower c1 ≠ tolower c2 then (tolower c1).val - (tolower c2).val
    else if c1 = 0 then 0
    else strcasecmp r1 r2

/-- The loop of `isSimilar`: `i` runs over `0 .. min(len1, len2) - 1` and
`matches` is incremented where the lowered bytes agree. -/
def countMatches (word1 word2 : CStr) : Nat :=
  (List.range (min word1.length word2.length)).foldl
    (fun m i => if tolower (word1.getD i 0) = tolower (word2.getD i 0) then m + 1 else m) 0

/-- Nearest integer to `p / q` (for `0 < q`), ties to the even one: the
rounding of IEEE 754 arithmetic. -/
def roundNearestEven (p q : Nat) : Nat :=
  let k := p / q
  let r := p % q
  if 2 * r < q then k else if q < 2 * r then k + 1 else if k % 2 = 0 then k else k + 1

/-- Conversion of a `size_t` to `float`: exact below `2^24`, else rounded to
24 significant bits. The value is again a natural number. -/
def sizeToFloat (n : Nat) : Nat :=
  if n < 2 ^ 24 then n else roundNearestEven n (2 ^ (Nat.log2 n - 23)) * 2 ^ (Nat.log2 n - 23)

/-- The binary exponent of the quotient `p / q` for `0 < p ≤ q`: the least
`s ≥ 23` with `q * 2^23 ≤ p * 2^s`, so that `p * 2^s / q` is a 24-bit
significand. -/
def quotientShift (p q : Nat) : Nat → Nat → Nat
  | 0, s => s
  | fuel + 1, s => if q * 2 ^ 23 ≤ p * 2 ^ s then s else quotientShift p q fuel (s + 1)

/-- The `float` quotient `p / q` of two `float` values `p ≤ q` that are
natural numbers, correctly rounded to binary32; `none` is the NaN of `0 / 0`. -/
def floatDiv (p q : Nat) : Option ℚ :=
  if q = 0 then none
  else if p = 0 then some 0
  else
    let s := quotientShift p q (q + 2) 23
    some ((roundNearestEven (p * 2 ^ s) q : ℚ) / (2 : ℚ) ^ s)

/-- The value `static_cast<float>(matches) / std::max(len1, len2)`: both
`size_t` operands are converted to `float` and the quotient is rounded to
binary32; `none` is the NaN of `0.0f / 0`. -/
def ratio (word1 word2 : CStr) : Option ℚ :=
  let len1 := word1.length
  let len2 := word2.length
  let m := countMatches word1 word2
  floatDiv (sizeToFloat m) (sizeToFloat (max len1 len2))

/-- Source `isSimilar`: `ratio >= threshold`, false when the ratio is NaN.
The threshold is the value of a `float`. -/
def isSimilar (word1 word2 : CStr) (threshold : ℚ) : Bool :=
  match ratio word1 word2 with
  | none => false
  | some r => decide (threshold ≤ r)

/-- The default value of the parameter `threshold`: the literal `0.8`
converted to `float`, that is `13421773 / 2^24`. -/
def defaultThreshold : ℚ := 13421773 / 16777216

/-- The comparison `ratio >= 0.8f` for `matches = m` and `max(len1, len2) = M`
in natural numbers (`isSimilar_default`). -/
def defaultSimilar (m M : Nat) : Bool :=
  let p := sizeToFloat m
  let q := sizeToFloat M
  if q = 0 then false
  else if p = 0 then false
  else
    let s := quotientShift p q (q + 2) 23
    decide (13421773 * 2 ^ s ≤ roundNearestEven (p * 2 ^ s) q * 16777216)

/-- A `std::istringstream`: the unread part of the buffer and two state bits. -/
structure IStringStream where
  buf : CStr
  eofbit : Bool
  failbit : Bool

/-- Source `std::getline(stream, token, delim)`: returns the stream after the
call and the extracted token. A stream that is not good fails at once; else
bytes are extracted up to and including the first `delim` (which is dropped),
or up to the end of the buffer, which sets `eofbit`; extracting nothing sets
`failbit`. -/
def getline (s : IStringStream) (delim : Byte) : IStringStream × CStr :=
  if s.eofbit || s.failbit then ({ s with failbit := true }, [])
  else
    let tok := s.buf.takeWhile (fun c => c != delim)
    match s.buf.dropWhile (fun c => c != delim) with
    | [] => ({ buf := [], eofbit := true, failbit := tok.isEmpty }, tok)
    | _ :: rest => ({ buf := rest, eofbit := false, failbit := false }, tok)

/-- The `while (std::getline(tokenStream, token, ' '))` loop of `tokenize`;
`none` when the fuel runs out before the stream fails. -/
def tokenizeLoop : Nat → IStringStream → List CStr → Option (List CStr)
  | 0, _, _ => none
  | fuel + 1, s, tokens =>
    let r := getline s space
    if r.1.failbit then some tokens else tokenizeLoop fuel r.1 (tokens ++ [r.2])

/-- Source `tokenize`: every successful `getline` consumes at least one byte,
so `input.length + 1` iterations are enough (`tokenizeLoop_eq`). -/
def tokenize (input : CStr) : List CStr :=
  (tokenizeLoop (input.length + 1) { buf := input, eofbit := false, failbit := false } []).getD []

/-- Source `matchPositive`: the exact pass, then the fuzzy pass. -/
def matchPositive (inputText : CStr) (positiveWords : List CStr) : Bool :=
  let tokens := tokenize inputText
  if tokens.any (fun token => positiveWords.any (fun word => strcasecmp token word == 0)) then
    true
  else if tokens.any (fun token =>
      positiveWords.any (fun word => isSimilar token word defaultThreshold)) then
    true
  else
    false

/-- Source `classifyResponse`. -/
def classifyResponse (inputText : CStr) (positiveWords : List CStr) : CStr :=
  if matchPositive inputText positiveWords then utf8 "肯定" else utf8 "否定"

/-- The list `positiveWords` of `microwaveTestPipeline`. -/
def positiveWords : List CStr :=
  ["要", "需要", "是", "好的", "好吧", "行", "成", "确定", "确认", "可以", "当然", "OK",
   "YES", "启动", "开始", "启动烹饪", "继续", "妥", "安排", "直接开始", "马上", "运行"].map utf8

/-- Case-insensitive equality of two strings: equal length and the same byte
after `tolower` at every position. -/
def caseInsensitiveEq (a b : CStr) : Prop :=
  a.length = b.length ∧ ∀ i, i < a.length → tolower (a.getD i 0) = tolower (b.getD i 0)

instance (a b : CStr) : Decidable (caseInsensitiveEq a b) := by
  unfold caseInsensitiveEq; infer_instance

/-- The `matches` of the specification: the number of positions
`i` in `[0, min(len(a), len(b)))` with `lower(a[i]) == lower(b[i])`. -/
def matchesSpec (a b : CStr) : Nat :=
  ((Finset.range (min a.length b.length)).filter
    (fun i => tolower (a.getD i 0) = tolower (b.getD i 0))).card

/-- The tokens of `input` when `cur` is the token read so far: a space closes
the current token, the end of the input closes it only if it is non-empty. -/
def tokensFrom : CStr → CStr → List CStr
  | [], cur => if cur.isEmpty then [] else [cur]
  | c :: rest, cur => if c = space then cur :: tokensFrom rest [] else tokensFrom rest (cur ++ [c])

/-- The list `positivePhrases` of `microwaveTestPipeline`. -/
def positivePhrases : List CStr :=
  ["好的，开始吧", "启动烹饪", "是的，马上开始", "确认开始", "当然启动", "可以，现在就运行",
   "搞起来，启动吧", "OK，启动烹饪", "来吧，启动", "准备好了，开始吧", "直接运行吧", "启动吧"].map utf8

/-- The list `negativePhrases` of `microwaveTestPipeline`. -/
def negativePhrases : List CStr :=
  ["不了，不用了", "我还没准备好", "先等等吧", "不用启动", "暂时先别开始", "不需要烹饪", "取消吧",
   "我不想启动", "这个就先算了", "不开始", "等会再启动", "暂时不要", "不用搞", "否定，不启动"].map utf8

/-- The list `allPhrases` of `microwaveTestPipeline`: the positive phrases
with the negative ones inserted at the end. -/
def allPhrases : List CStr := positivePhrases ++ negativePhrases

/-- The list `contexts` of `addLengthVariation`. -/
def contexts : List CStr :=
  ["我觉得可以这样：", "确认一下，我说的是：", "实际上是这样的：", "现在我们可以这样处理：", "听我的：",
   "对了，还有：", "可以确认，现在开始：", "简单来说：", "如果你问我的话：", "具体情况是这样的："].map utf8

/-- The process-wide random source behind `rand()`: the sequence of values it
returns and the number of calls made so far. -/
structure RandState where
  values : Nat → Nat
  calls : Nat

/-- C `rand()`: the next value of the sequence. -/
def rand (g : RandState) : Nat × RandState :=
  (g.values g.calls, { g with calls := g.calls + 1 })

/-- Source `addLengthVariation`: one call of `rand()` decides whether a
context is put in front, a second call picks the context. -/
def addLengthVariation (phrase : CStr) (g : RandState) : CStr × RandState :=
  let r1 := rand g
  if r1.1 % 2 = 0 then
    let r2 := rand r1.2
    (contexts.getD (r2.1 % contexts.length) [] ++ phrase, r2.2)
  else
    (phrase, r1.2)

/-- The loop `for (size_t i = 0; i < 300; ++i)` of `microwaveTestPipeline`,
with the number of iterations left: the phrase is drawn first, then
`addLengthVariation` runs on it and the sentence is pushed back. -/
def generateSentences : Nat → RandState → List CStr → List CStr × RandState
  | 0, g, testSentences => (testSentences, g)
  | n + 1, g, testSentences =>
    let r := rand g
    let v := addLengthVariation (allPhrases.getD (r.1 % allPhrases.length) []) r.2
    generateSentences n v.2 (testSentences ++ [v.1])

/-- The line feed that ends a line of the report. -/
def newline : Byte := 10

/-- What the loop over `results` streams into the file for one result:
`first`, `" => "`, `second` and a line feed, as UTF-8 text. -/
def reportLine (result : CStr × CStr) : CStr :=
  result.1 ++ utf8 " => " ++ result.2 ++ [newline]

/-- One run of `microwaveTestPipeline`: the returned `results`, the text
written to the output file (`none` when the file was not opened) and the
random source after the run. -/
structure PipelineRun where
  results : List (CStr × CStr)
  written : Option CStr
  rng : RandState

/-- Source `microwaveTestPipeline`; `fileOpens` is the result of
`file.open(QIODevice::WriteOnly | QIODevice::Text)`. -/
def microwaveTestPipeline (g : RandState) (fileOpens : Bool) : PipelineRun :=
  let gen := generateSentences 300 g []
  let testSentences := gen.1
  let results := testSentences.map
    (fun sentence => (sentence, classifyResponse sentence positiveWords))
  let written := if fileOpens then some (results.flatMap reportLine) else none
  { results := results, written := written, rng := gen.2 }

/-- One run of the program: the lines printed on `std::cout`, the exit status
and the text written to the output file. -/
structure ProcessRun where
  stdout : List CStr
  exitCode : Int
  written : Option CStr

/-- Source `main`. -/
def main (g : RandState) (fileOpens : Bool) : ProcessRun :=
  let run := microwaveTestPipeline g fileOpens
  let shown := (List.range 10).map (fun i =>
    utf8 "输入: " ++ (run.results.getD i ([], [])).1 ++ utf8 " => 分类: " ++
      (run.results.getD i ([], [])).2)
  { stdout := shown ++
      [utf8 "测试完成，结果已保存到文件 \x27microwave_test_sentences_combined.txt\x27。"],
    exitCode := 0,
    written := run.written }

/-- The sentences the pipeline can generate: a seed phrase, or a context
directly in front of a seed phrase. -/
def candidateSentences : List CStr :=
  allPhrases ++ contexts.flatMap (fun context => allPhrases.map (fun phrase => context ++ phrase))

/-- Reading a text back line by line: `cur` is the line read so far, a line
feed closes it, the end of the text closes it only if it is non-empty. -/
def readLines : CStr → CStr → List CStr
  | [], cur => if cur.isEmpty then [] else [cur]
  | c :: rest, cur =>
    if c = newline then cur :: readLines rest [] else readLines rest (cur ++ [c])

/-- Split at the first occurrence of `pat`: the parts before and after it. -/
def splitAtFirst (pat : CStr) : CStr → Option (CStr × CStr)
  | [] => if pat.isEmpty then some ([], []) else none
  | c :: s =>
    if pat.isPrefixOf (c :: s) then some ([], (c :: s).drop pat.length)
    else (splitAtFirst pat s).map (fun p => (c :: p.1, p.2))

/-- Split at the final occurrence of `pat`: the parts before and after it. -/
def splitAtLast (pat line : CStr) : Option (CStr × CStr) :=
  (splitAtFirst pat.reverse line.reverse).map (fun p => (p.2.reverse, p.1.reverse))

/-- Reading a report back: its lines, each split at its final `" => "`. -/
def parseReport (content : CStr) : List (Option (CStr × CStr)) :=
  (readLines content []).map (splitAtLast (utf8 " => "))

/-- A sentence is well formed when it is a seed phrase or a context directly
in front of a seed phrase. -/
def validSentence (s : CStr) : Prop :=
  s ∈ allPhrases ∨ ∃ context ∈ contexts, ∃ phrase ∈ allPhrases, s = context ++ phrase

/-! ## Theorems -/

theorem takeWhile_append_delim (d : Byte) (tok rest : CStr) (h : ∀ c ∈ tok, c ≠ d) :
    (tok ++ d :: rest).takeWhile (fun c => c != d) = tok ∧
      (tok ++ d :: rest).dropWhile (fun c => c != d) = d :: rest := by
  induction tok with
  | nil => simp
  | cons t ts ih =>
    have ht : t ≠ d := h t (by simp)
    have := ih (fun c hc => h c (by simp [hc]))
    simp [List.takeWhile_cons, List.dropWhile_cons, ht, this]

theorem takeWhile_no_delim (d : Byte) (tok : CStr) (h : ∀ c ∈ tok, c ≠ d) :
    tok.takeWhile (fun c => c != d) = tok ∧ tok.dropWhile (fun c => c != d) = [] := by
  induction tok with
  | nil => simp
  | cons t ts ih =>
    have ht : t ≠ d := h t (by simp)
    have := ih (fun c hc => h c (by simp [hc]))
    simp [List.takeWhile_cons, List.dropWhile_cons, ht, this]

/-- Every string is free of the delimiter or splits at its first delimiter. -/
theorem split_first_delim (d : Byte) (buf : CStr) :
    (∀ c ∈ buf, c ≠ d) ∨
      ∃ tok rest, buf = tok ++ d :: rest ∧ ∀ c ∈ tok, c ≠ d := by
  induction buf with
  | nil => left; simp
  | cons b bs ih =>
    by_cases hb : b = d
    · right; exact ⟨[], bs, by simp [hb], by simp⟩
    · rcases ih with h | ⟨tok, rest, rfl, h⟩
      · left
        intro c hc
        rcases List.mem_cons.mp hc with rfl | hc
        · exact hb
        · exact h c hc
      · right
        refine ⟨b :: tok, rest, by simp, ?_⟩
        intro c hc
        rcases List.mem_cons.mp hc with rfl | hc
        · exact hb
        · exact h c hc

theorem getline_no_delim (d : Byte) (tok : CStr) (h : ∀ c ∈ tok, c ≠ d) :
    getline { buf := tok, eofbit := false, failbit := false } d =
      ({ buf := [], eofbit := true, failbit := tok.isEmpty }, tok) := by
  obtain ⟨h1, h2⟩ := takeWhile_no_delim d tok h
  simp [getline, h1, h2]

theorem getline_delim (d : Byte) (tok rest : CStr) (h : ∀ c ∈ tok, c ≠ d) :
    getline { buf := tok ++ d :: rest, eofbit := false, failbit := false } d =
      ({ buf := rest, eofbit := false, failbit := false }, tok) := by
  obtain ⟨h1, h2⟩ := takeWhile_append_delim d tok rest h
  simp only [getline, h1, h2]
  simp

theorem tokensFrom_no_delim (tok cur : CStr) (h : ∀ c ∈ tok, c ≠ space) :
    tokensFrom tok cur = if (cur ++ tok).isEmpty then [] else [cur ++ tok] := by
  induction tok generalizing cur with
  | nil => simp [tokensFrom]
  | cons t ts ih =>
    have ht : t ≠ space := h t (by simp)
    rw [tokensFrom, if_neg ht, ih _ (fun c hc => h c (by simp [hc]))]
    simp

theorem tokensFrom_delim (tok rest cur : CStr) (h : ∀ c ∈ tok, c ≠ space) :
    tokensFrom (tok ++ space :: rest) cur = (cur ++ tok) :: tokensFrom rest [] := by
  induction tok generalizing cur with
  | nil => simp [tokensFrom]
  | cons t ts ih =>
    have ht : t ≠ space := h t (by simp)
    rw [List.cons_append, tokensFrom, if_neg ht, ih _ (fun c hc => h c (by simp [hc]))]
    simp

/-- The loop of `tokenize` does not run out of fuel and computes `tokensFrom`. -/
theorem tokenizeLoop_eq (fuel : Nat) (buf : CStr) (acc : List CStr) (h : buf.length < fuel) :
    tokenizeLoop fuel { buf := buf, eofbit := false, failbit := false } acc =
      some (acc ++ tokensFrom buf []) := by
  induction fuel generalizing buf acc with
  | zero => omega
  | succ fuel ih =>
    rcases split_first_delim space buf with hno | ⟨tok, rest, rfl, hno⟩
    · rw [tokenizeLoop, getline_no_delim space buf hno, tokensFrom_no_delim buf [] hno]
      cases buf with
      | nil => simp
      | cons b bs =>
        obtain ⟨f, rfl⟩ : ∃ f, fuel = f + 1 := ⟨fuel - 1, by simp at h; omega⟩
        simp [tokenizeLoop, getline]
    · have hr : rest.length < fuel := by
        simp at h
        omega
      rw [tokenizeLoop, getline_delim space tok rest hno, tokensFrom_delim tok rest [] hno]
      simp [ih rest _ hr]

theorem tokenize_eq (input : CStr) : tokenize input = tokensFrom input [] := by
  simp [tokenize, tokenizeLoop_eq]

theorem foldl_count (p : Nat → Prop) [DecidablePred p] (l : List Nat) (k : Nat) :
    l.foldl (fun m i => if p i then m + 1 else m) k = k + (l.filter (fun i => decide (p i))).length := by
  induction l generalizing k with
  | nil => simp
  | cons x xs ih =>
    rw [List.foldl_cons, ih]
    by_cases hx : p x
    · simp [hx]; omega
    · simp [hx]

/-- The loop of `isSimilar` counts the matching positions. -/
theorem countMatches_eq_filter (a b : CStr) :
    countMatches a b = ((List.range (min a.length b.length)).filter
      (fun i => decide (tolower (a.getD i 0) = tolower (b.getD i 0)))).length := by
  unfold countMatches
  rw [foldl_count (fun i => tolower (a.getD i 0) = tolower (b.getD i 0))]
  simp

theorem countMatches_eq_spec (a b : CStr) : countMatches a b = matchesSpec a b := by
  rw [countMatches_eq_filter]
  rfl

theorem countMatches_le (a b : CStr) : countMatches a b ≤ min a.length b.length := by
  rw [countMatches_eq_filter]
  exact (List.length_filter_le _ _).trans (by simp)

theorem countMatches_eq_min_iff (a b : CStr) :
    countMatches a b = min a.length b.length ↔
      ∀ i, i < min a.length b.length → tolower (a.getD i 0) = tolower (b.getD i 0) := by
  rw [countMatches_eq_filter]
  conv_lhs => rhs; rw [← List.length_range (min a.length b.length)]
  rw [List.filter_length_eq_length]
  simp

theorem max_length_pos (a b : CStr) (h : ¬(a = [] ∧ b = [])) : 0 < max a.length b.length := by
  rcases a with _ | ⟨x, xs⟩
  · rcases b with _ | ⟨y, ys⟩
    · simp at h
    · simp
  · simp

/-! ### The binary32 arithmetic of `isSimilar` -/

theorem quotientShift_ge (p q fuel s : Nat) : s ≤ quotientShift p q fuel s := by
  induction fuel generalizing s with
  | zero => simp [quotientShift]
  | succ fuel ih =>
    rw [quotientShift]
    split
    · exact le_refl s
    · exact (Nat.le_succ s).trans (ih (s + 1))

/-- The shift is minimal: the test failed one step before it. -/
theorem quotientShift_minimal (p q fuel s : Nat) (h : s < quotientShift p q fuel s) :
    p * 2 ^ (quotientShift p q fuel s - 1) < q * 2 ^ 23 := by
  induction fuel generalizing s with
  | zero => simp [quotientShift] at h
  | succ fuel ih =>
    rw [quotientShift] at h ⊢
    split at h
    · omega
    · rename_i hs
      rw [if_neg hs]
      rcases Nat.eq_or_lt_of_le (quotientShift_ge p q fuel (s + 1)) with heq | hlt
      · rw [← heq]
        simpa using hs
      · exact ih (s + 1) hlt

theorem roundNearestEven_le (p q : Nat) : roundNearestEven p q ≤ p / q + 1 := by
  unfold roundNearestEven
  simp only
  split_ifs <;> omega

theorem le_roundNearestEven (p q : Nat) : p / q ≤ roundNearestEven p q := by
  unfold roundNearestEven
  simp only
  split_ifs <;> omega

theorem quotientShift_test (p q fuel s : Nat) (h : q * 2 ^ 23 ≤ p * 2 ^ (s + fuel)) :
    q * 2 ^ 23 ≤ p * 2 ^ quotientShift p q fuel s := by
  induction fuel generalizing s with
  | zero => simpa [quotientShift] using h
  | succ fuel ih =>
    rw [quotientShift]
    split
    · assumption
    · exact ih (s + 1) (by rw [show s + 1 + fuel = s + (fuel + 1) by omega]; exact h)

/-- The fuel of `floatDiv` is enough: the shift found makes the significand
at least `2^23`. -/
theorem quotientShift_spec (p q : Nat) (hp : 0 < p) :
    q * 2 ^ 23 ≤ p * 2 ^ quotientShift p q (q + 2) 23 := by
  apply quotientShift_test
  have h1 : q < 2 ^ (q + 2) := (Nat.lt_two_pow q).trans (Nat.pow_lt_pow_right (by norm_num) (by omega))
  calc q * 2 ^ 23 ≤ 2 ^ (q + 2) * 2 ^ 23 := Nat.mul_le_mul_right _ h1.le
    _ = 1 * 2 ^ (23 + (q + 2)) := by rw [one_mul, ← pow_add, add_comm]
    _ ≤ p * 2 ^ (23 + (q + 2)) := Nat.mul_le_mul_right _ hp

theorem roundNearestEven_self_mul (q n : Nat) (hq : 0 < q) : roundNearestEven (q * n) q = n := by
  unfold roundNearestEven
  simp [Nat.mul_div_cancel_left n hq, hq]

/-- Rounding `m * 2^24 / M` reaches the significand of `0.8f` exactly when
`m / M ≥ 4 / 5`, for `M` below `11184814`. -/
theorem roundNearestEven_ge_iff (m M : Nat) (hM : 0 < M) (hb : M < 11184814) :
    13421773 ≤ roundNearestEven (m * 16777216) M ↔ 4 * M ≤ 5 * m := by
  have hdm := Nat.div_add_mod (m * 16777216) M
  have hr := Nat.mod_lt (m * 16777216) hM
  have hle := roundNearestEven_le (m * 16777216) M
  have hge := le_roundNearestEven (m * 16777216) M
  have hdef : roundNearestEven (m * 16777216) M =
      if 2 * (m * 16777216 % M) < M then m * 16777216 / M
      else if M < 2 * (m * 16777216 % M) then m * 16777216 / M + 1
      else if m * 16777216 / M % 2 = 0 then m * 16777216 / M else m * 16777216 / M + 1 := rfl
  generalize roundNearestEven (m * 16777216) M = R at hle hge hdef ⊢
  generalize (m * 16777216) / M = k at hdm hle hge hdef
  generalize (m * 16777216) % M = r at hdm hr hdef
  constructor
  · intro h
    by_contra hc
    have hc1 : 5 * m + 1 ≤ 4 * M := by omega
    have hk : 13421772 ≤ k := by omega
    have hP : M * 13421772 ≤ M * k := Nat.mul_le_mul (le_refl M) hk
    rcases Nat.eq_or_lt_of_le hk with hk1 | hk1
    · have hodd : k % 2 = 0 := by omega
      have hr2 : M < 2 * r := by
        by_contra hr2
        have : R = k := by
          rw [hdef]
          by_cases h3 : 2 * r < M
          · rw [if_pos h3]
          · rw [if_neg h3, if_neg hr2, if_pos hodd]
        omega
      have hP1 : M * k = M * 13421772 := by rw [← hk1]
      have hlin : 13421772 * M + r = 16777216 * m := by linarith
      have hd : ¬(5 * m + 2 ≤ 4 * M) := by
        intro hd
        linarith
      have hlo : 33554432 < 3 * M := by linarith
      have hlo2 : 11184811 ≤ M := by omega
      have heq : 5 * m + 1 = 4 * M := by omega
      clear hdef hdm hP hP1 hle hge h hodd hk1 hk hlin hr2 hr hlo hd hc hc1
      interval_cases M <;> omega
    · have hP2 : M * 13421773 ≤ M * k := Nat.mul_le_mul (le_refl M) hk1
      linarith
  · intro h
    have hk : 13421772 ≤ k := by
      by_contra hk
      have hP : M * k ≤ M * 13421771 := Nat.mul_le_mul (le_refl M) (by omega)
      linarith
    rcases Nat.eq_or_lt_of_le hk with hk1 | hk1
    · have hP1 : M * k = M * 13421772 := by rw [← hk1]
      have hr2 : M < 2 * r := by linarith
      have : R = k + 1 := by
        rw [hdef, if_neg (by omega), if_pos hr2]
      omega
    · omega

/-- With a shift of at least 25 the rounded quotient is at most `1 / 2`. -/
theorem quotient_le_half (m M u : Nat) (hM : 0 < M)
    (hmin : m * 2 ^ (u + 24) < M * 8388608) :
    (roundNearestEven (m * 2 ^ (u + 25)) M : ℚ) / (2 : ℚ) ^ (u + 25) ≤ 1 / 2 := by
  have hX : m * 2 ^ (u + 25) < 16777216 * M := by
    calc m * 2 ^ (u + 25) = 2 * (m * 2 ^ (u + 24)) := by
          rw [show u + 25 = (u + 24) + 1 from rfl, pow_succ]
          ring
      _ < 2 * (M * 8388608) := Nat.mul_lt_mul_of_pos_left hmin (by norm_num)
      _ = 16777216 * M := by ring
  have hk : m * 2 ^ (u + 25) / M < 16777216 := (Nat.div_lt_iff_lt_mul hM).mpr hX
  have hR : roundNearestEven (m * 2 ^ (u + 25)) M ≤ 16777216 :=
    (roundNearestEven_le _ _).trans hk
  have hRq : (roundNearestEven (m * 2 ^ (u + 25)) M : ℚ) ≤ 16777216 := by
    exact_mod_cast hR
  have hpow : (2 : ℚ) ^ 25 ≤ 2 ^ (u + 25) :=
    pow_le_pow_right₀ (by norm_num) (by omega)
  rw [div_le_iff₀ (by positivity)]
  calc (roundNearestEven (m * 2 ^ (u + 25)) M : ℚ) ≤ 16777216 := hRq
    _ = 1 / 2 * 2 ^ 25 := by norm_num
    _ ≤ 1 / 2 * 2 ^ (u + 25) := by
      apply mul_le_mul_of_nonneg_left hpow
      norm_num

/-- The binary32 quotient of `m ≤ M` reaches `0.8f` exactly when
`m / M ≥ 4 / 5`, for `M` below `11184814`. -/
theorem floatDiv_ge_default (m M : Nat) (hM : 0 < M) (hmM : m ≤ M) (hb : M < 11184814) :
    ∃ r, floatDiv m M = some r ∧ (defaultThreshold ≤ r ↔ 4 * M ≤ 5 * m) := by
  have hM0 : M ≠ 0 := by omega
  have e1 : (2 : ℕ) ^ 23 = 8388608 := by norm_num
  by_cases hm0 : m = 0
  · subst hm0
    refine ⟨0, by simp [floatDiv, hM0], ?_⟩
    simp only [defaultThreshold]
    constructor
    · intro h; norm_num at h
    · intro h; omega
  · have hfd : floatDiv m M =
        some ((roundNearestEven (m * 2 ^ quotientShift m M (M + 2) 23) M : ℚ) /
          (2 : ℚ) ^ quotientShift m M (M + 2) 23) := by
      simp only [floatDiv, hM0, hm0, if_false]
    refine ⟨_, hfd, ?_⟩
    by_cases h1 : M ≤ m
    · have hmeq : m = M := le_antisymm hmM h1
      subst hmeq
      have hs : quotientShift m m (m + 2) 23 = 23 := by
        rw [quotientShift, if_pos (le_refl _)]
      rw [hs, roundNearestEven_self_mul m _ hM]
      simp only [defaultThreshold]
      constructor
      · intro _; omega
      · intro _; norm_num
    · by_cases h2 : M ≤ 2 * m
      · have hs : quotientShift m M (M + 2) 23 = 24 := by
          rw [quotientShift, if_neg (by rw [e1]; omega), quotientShift,
            if_pos (by norm_num; omega)]
        rw [hs, ← roundNearestEven_ge_iff m M hM hb]
        simp only [defaultThreshold]
        have e2 : (2 : ℕ) ^ 24 = 16777216 := by norm_num
        have e3 : (2 : ℚ) ^ 24 = 16777216 := by norm_num
        rw [e2, e3]
        generalize roundNearestEven (m * 16777216) M = R
        rw [div_le_div_iff_of_pos_right (by norm_num)]
        exact_mod_cast Iff.rfl
      · have hs : quotientShift m M (M + 2) 23 = quotientShift m M M 25 := by
          rw [quotientShift, if_neg (by rw [e1]; omega), quotientShift,
            if_neg (by norm_num; omega)]
        have hge := quotientShift_ge m M M 25
        have hmin : m * 2 ^ (quotientShift m M M 25 - 1) < M * 2 ^ 23 := by
          rcases Nat.eq_or_lt_of_le hge with heq | hlt
          · rw [← heq]
            norm_num
            omega
          · exact quotientShift_minimal m M M 25 hlt
        rw [hs]
        generalize quotientShift m M M 25 = s at hge hmin
        obtain ⟨u, rfl⟩ : ∃ u, s = u + 25 := ⟨s - 25, by omega⟩
        rw [e1, show u + 25 - 1 = u + 24 from rfl] at hmin
        have hlt := quotient_le_half m M u hM hmin
        simp only [defaultThreshold]
        constructor
        · intro h
          exfalso
          have := h.trans hlt
          norm_num at this
        · intro h
          omega

theorem sizeToFloat_small (n : Nat) (h : n < 2 ^ 24) : sizeToFloat n = n := by
  unfold sizeToFloat
  rw [if_pos h]

theorem log2_eq (n k : Nat) (hk : k ≠ 0) (h1 : 2 ^ k ≤ n) (h2 : n < 2 ^ (k + 1)) :
    Nat.log2 n = k := by
  rw [Nat.log2_eq_log_two]
  exact (Nat.log_eq_iff (Or.inl hk)).mpr ⟨h1, h2⟩

theorem sizeToFloat_exact (n : Nat) (h : n ≤ 2 ^ 24) : sizeToFloat n = n := by
  rcases Nat.lt_or_eq_of_le h with h1 | h1
  · exact sizeToFloat_small n h1
  · subst h1
    have hl : Nat.log2 (2 ^ 24) = 24 := log2_eq _ 24 (by norm_num) (by norm_num) (by norm_num)
    unfold sizeToFloat
    rw [if_neg (by norm_num), hl]
    decide

/-- The first length that `float` cannot hold: `2^24 + 1` converts to `2^24`. -/
theorem sizeToFloat_16777217 : sizeToFloat 16777217 = 16777216 := by
  have hl : Nat.log2 16777217 = 24 := log2_eq _ 24 (by norm_num) (by norm_num) (by norm_num)
  unfold sizeToFloat
  rw [if_neg (by norm_num), hl]
  decide

theorem sizeToFloat_zero : sizeToFloat 0 = 0 := sizeToFloat_small 0 (by norm_num)

theorem sizeToFloat_pos (n : Nat) (h : 0 < n) : 0 < sizeToFloat n := by
  unfold sizeToFloat
  split
  · exact h
  · have hle : 2 ^ Nat.log2 n ≤ n := Nat.log2_self_le (by omega)
    have hpow : 2 ^ (Nat.log2 n - 23) ≤ 2 ^ Nat.log2 n :=
      Nat.pow_le_pow_right (by norm_num) (by omega)
    have hdiv : 0 < n / 2 ^ (Nat.log2 n - 23) :=
      Nat.div_pos (hpow.trans hle) (by positivity)
    have hr := le_roundNearestEven n (2 ^ (Nat.log2 n - 23))
    exact Nat.mul_pos (by omega) (by positivity)

theorem floatDiv_zero_left (q : Nat) : floatDiv 0 q = if q = 0 then none else some 0 := by
  simp [floatDiv]

theorem floatDiv_eq_some (p q : Nat) (hq : 0 < q) : ∃ r, floatDiv p q = some r := by
  have hq0 : q ≠ 0 := by omega
  by_cases hp : p = 0
  · exact ⟨0, by simp [floatDiv, hq0, hp]⟩
  · exact ⟨(roundNearestEven (p * 2 ^ quotientShift p q (q + 2) 23) q : ℚ) /
      (2 : ℚ) ^ quotientShift p q (q + 2) 23, by simp only [floatDiv, hq0, hp, if_false]⟩

/-- The quotient of a positive `float` by itself is exactly `1`. -/
theorem floatDiv_self (p : Nat) (hp : 0 < p) : floatDiv p p = some 1 := by
  have hp0 : p ≠ 0 := by omega
  have hs : quotientShift p p (p + 2) 23 = 23 := by
    rw [quotientShift, if_pos (le_refl _)]
  simp only [floatDiv, hp0, if_false, hs, roundNearestEven_self_mul p _ hp]
  norm_num

theorem roundNearestEven_lt (X M N : Nat) (hM : 0 < M) (h : X + M ≤ M * N) :
    roundNearestEven X M < N := by
  have hdm := Nat.div_add_mod X M
  have hr := Nat.mod_lt X hM
  have hle := roundNearestEven_le X M
  have hdef : roundNearestEven X M =
      if 2 * (X % M) < M then X / M
      else if M < 2 * (X % M) then X / M + 1
      else if X / M % 2 = 0 then X / M else X / M + 1 := rfl
  generalize roundNearestEven X M = R at hle hdef ⊢
  generalize X / M = k at hdm hle hdef
  generalize X % M = r at hdm hr hdef
  have hk : k < N := by
    have h1 : M * k < M * N := by omega
    exact Nat.lt_of_mul_lt_mul_left h1
  rcases Nat.lt_or_ge (k + 1) N with h2 | h2
  · omega
  · have hkN : k + 1 = N := by omega
    have h3 : M * (k + 1) = M * N := by rw [hkN]
    have h4 : M * (k + 1) = M * k + M := by ring
    have hr0 : r = 0 := by omega
    rw [hdef, hr0, if_pos (by omega)]
    exact hk

/-- The quotient of `0 < m < M ≤ 2^24` is a `float` below `1`. -/
theorem floatDiv_lt_one (m M : Nat) (hm : 0 < m) (hmM : m < M) (hb : M ≤ 16777216) :
    ∃ r, floatDiv m M = some r ∧ r < 1 := by
  have hM0 : M ≠ 0 := by omega
  have hm0 : m ≠ 0 := by omega
  have hM : 0 < M := by omega
  have hfd : floatDiv m M =
      some ((roundNearestEven (m * 2 ^ quotientShift m M (M + 2) 23) M : ℚ) /
        (2 : ℚ) ^ quotientShift m M (M + 2) 23) := by
    simp only [floatDiv, hM0, hm0, if_false]
  refine ⟨_, hfd, ?_⟩
  have hs : quotientShift m M (M + 2) 23 = quotientShift m M (M + 1) 24 := by
    rw [quotientShift, if_neg (by
      intro hc
      have := Nat.le_of_mul_le_mul_right hc (by positivity)
      omega)]
  have hge := quotientShift_ge m M (M + 1) 24
  rw [hs]
  generalize quotientShift m M (M + 1) 24 = s at hge
  have hpow : 16777216 ≤ 2 ^ s := by
    calc 16777216 = 2 ^ 24 := by norm_num
      _ ≤ 2 ^ s := Nat.pow_le_pow_right (by norm_num) hge
  have hX : m * 2 ^ s + M ≤ M * 2 ^ s := by
    obtain ⟨d, rfl⟩ : ∃ d, M = m + 1 + d := ⟨M - m - 1, by omega⟩
    have : (m + 1 + d) * 2 ^ s = m * 2 ^ s + 2 ^ s + d * 2 ^ s := by ring
    have hd : 0 ≤ d * 2 ^ s := Nat.zero_le _
    omega
  have hlt := roundNearestEven_lt _ M (2 ^ s) hM hX
  rw [div_lt_one (by positivity)]
  exact_mod_cast hlt

/-- Rounding to the nearest integer moves a quotient by at most one half. -/
theorem roundNearestEven_error (X q : Nat) (hq : 0 < q) :
    |(roundNearestEven X q : ℚ) - (X : ℚ) / (q : ℚ)| ≤ 1 / 2 := by
  have hdm := Nat.div_add_mod X q
  have hr := Nat.mod_lt X hq
  have hqq : (0 : ℚ) < (q : ℚ) := by exact_mod_cast hq
  have hdef : roundNearestEven X q =
      if 2 * (X % q) < q then X / q
      else if q < 2 * (X % q) then X / q + 1
      else if X / q % 2 = 0 then X / q else X / q + 1 := rfl
  generalize roundNearestEven X q = R at hdef ⊢
  generalize X / q = k at hdm hdef
  generalize X % q = r at hdm hr hdef
  have hXq : (X : ℚ) = (q : ℚ) * k + r := by exact_mod_cast hdm.symm
  have hdiv : (X : ℚ) / (q : ℚ) = k + (r : ℚ) / q := by
    rw [hXq]
    field_simp
    ring
  have hr0 : (0 : ℚ) ≤ (r : ℚ) / q := by positivity
  have hr1 : (r : ℚ) / q < 1 := by
    rw [div_lt_one hqq]
    exact_mod_cast hr
  rw [hdiv, abs_le]
  have hcase : (R = k ∧ 2 * r ≤ q) ∨ (R = k + 1 ∧ q ≤ 2 * r) := by
    rw [hdef]
    split_ifs <;> omega
  rcases hcase with ⟨hR, h2⟩ | ⟨hR, h2⟩
  · have h3 : (r : ℚ) / q ≤ 1 / 2 := by
      rw [div_le_iff₀ hqq]
      have : ((2 * r : Nat) : ℚ) ≤ ((q : Nat) : ℚ) := by exact_mod_cast h2
      push_cast at this
      linarith
    rw [hR]
    constructor <;> linarith
  · have h3 : 1 / 2 ≤ (r : ℚ) / q := by
      rw [le_div_iff₀ hqq]
      have : ((q : Nat) : ℚ) ≤ ((2 * r : Nat) : ℚ) := by exact_mod_cast h2
      push_cast at this
      linarith
    rw [hR]
    push_cast
    constructor <;> linarith

/-- The binary32 quotient of `p ≤ q` differs from the exact quotient by at
most `2^-25`. -/
theorem floatDiv_error (p q : Nat) (hq : 0 < q) (hpq : p ≤ q) :
    ∃ r, floatDiv p q = some r ∧ |r - (p : ℚ) / (q : ℚ)| ≤ 1 / 2 ^ 25 := by
  have hq0 : q ≠ 0 := by omega
  have hqq : (0 : ℚ) < (q : ℚ) := by exact_mod_cast hq
  by_cases hp0 : p = 0
  · subst hp0
    refine ⟨0, by simp [floatDiv, hq0], ?_⟩
    simp
  by_cases hpq2 : p = q
  · subst hpq2
    refine ⟨1, floatDiv_self p hq, ?_⟩
    rw [div_self (ne_of_gt hqq)]
    simp
  have hfd : floatDiv p q =
      some ((roundNearestEven (p * 2 ^ quotientShift p q (q + 2) 23) q : ℚ) /
        (2 : ℚ) ^ quotientShift p q (q + 2) 23) := by
    simp only [floatDiv, hq0, hp0, if_false]
  refine ⟨_, hfd, ?_⟩
  have hs : quotientShift p q (q + 2) 23 = quotientShift p q (q + 1) 24 := by
    rw [quotientShift, if_neg (by
      intro hc
      have := Nat.le_of_mul_le_mul_right hc (by positivity)
      omega)]
  have hge := quotientShift_ge p q (q + 1) 24
  rw [hs]
  generalize quotientShift p q (q + 1) 24 = s at hge
  have herr := roundNearestEven_error (p * 2 ^ s) q hq
  have h2s : (0 : ℚ) < (2 : ℚ) ^ s := by positivity
  have hrew : (roundNearestEven (p * 2 ^ s) q : ℚ) / (2 : ℚ) ^ s - (p : ℚ) / (q : ℚ) =
      ((roundNearestEven (p * 2 ^ s) q : ℚ) - ((p * 2 ^ s : Nat) : ℚ) / (q : ℚ)) / (2 : ℚ) ^ s := by
    push_cast
    field_simp
    ring
  rw [hrew, abs_div, abs_of_pos h2s, div_le_iff₀ h2s]
  have hpow : (2 : ℚ) ^ 24 ≤ (2 : ℚ) ^ s := pow_le_pow_right₀ (by norm_num) hge
  calc |(roundNearestEven (p * 2 ^ s) q : ℚ) - ((p * 2 ^ s : Nat) : ℚ) / (q : ℚ)| ≤ 1 / 2 := herr
    _ = 1 / 2 ^ 25 * 2 ^ 24 := by norm_num
    _ ≤ 1 / 2 ^ 25 * 2 ^ s := by
      apply mul_le_mul_of_nonneg_left hpow
      positivity

/-! ### `isSimilar` -/

theorem ratio_eq (a b : CStr) :
    ratio a b =
      floatDiv (sizeToFloat (countMatches a b)) (sizeToFloat (max a.length b.length)) := rfl

theorem isSimilar_nil_nil (t : ℚ) : isSimilar [] [] t = false := by
  have h : ratio [] [] = none := by
    rw [ratio_eq]
    have hc : countMatches [] [] = 0 := rfl
    simp [hc, sizeToFloat_zero, floatDiv]
  simp [isSimilar, h]

/-- The ratio of two strings that are not both empty is a number, not NaN. -/
theorem ratio_of_pos (a b : CStr) (h : 0 < max a.length b.length) : ∃ r, ratio a b = some r := by
  rw [ratio_eq]
  exact floatDiv_eq_some _ _ (sizeToFloat_pos _ h)

/-- Evaluation of `isSimilar` at the default threshold in natural numbers. -/
theorem isSimilar_default (a b : CStr) :
    isSimilar a b defaultThreshold =
      defaultSimilar (countMatches a b) (max a.length b.length) := by
  simp only [isSimilar, ratio_eq, defaultSimilar, floatDiv]
  generalize sizeToFloat (countMatches a b) = p
  generalize sizeToFloat (max a.length b.length) = q
  by_cases hq : q = 0
  · simp [hq]
  · by_cases hp : p = 0
    · simp [hq, hp, defaultThreshold]
    · simp only [hq, hp, if_false, defaultThreshold]
      generalize quotientShift p q (q + 2) 23 = s
      generalize roundNearestEven (p * 2 ^ s) q = R
      rw [Bool.eq_iff_iff]
      simp only [decide_eq_true_eq]
      rw [div_le_div_iff (by norm_num) (by positivity)]
      constructor
      · intro h
        have h2 : ((13421773 * 2 ^ s : Nat) : ℚ) ≤ ((R * 16777216 : Nat) : ℚ) := by
          push_cast
          exact h
        exact_mod_cast h2
      · intro h
        have h2 : ((13421773 * 2 ^ s : Nat) : ℚ) ≤ ((R * 16777216 : Nat) : ℚ) := by
          exact_mod_cast h
        push_cast at h2
        exact h2

/-- Below `11184814` bytes the comparison with `0.8f` is the exact comparison
of `matches / max(len1, len2)` with `4 / 5`. -/
theorem isSimilar_default_small (a b : CStr) (h : max a.length b.length < 11184814) :
    isSimilar a b defaultThreshold =
      decide (0 < max a.length b.length ∧ 4 * max a.length b.length ≤ 5 * countMatches a b) := by
  have hm : countMatches a b ≤ max a.length b.length :=
    (countMatches_le a b).trans (min_le_max)
  have h24 : max a.length b.length < 2 ^ 24 := h.trans (by norm_num)
  simp only [isSimilar, ratio_eq, sizeToFloat_small _ h24,
    sizeToFloat_small _ (lt_of_le_of_lt hm h24)]
  by_cases hM : 0 < max a.length b.length
  · obtain ⟨r, hr, hiff⟩ := floatDiv_ge_default _ _ hM hm h
    rw [hr]
    simp only [hM, true_and]
    rw [Bool.eq_iff_iff]
    simpa using hiff
  · have hM0 : max a.length b.length = 0 := by omega
    have hm0 : countMatches a b = 0 := by omega
    rw [hM0, hm0]
    simp [floatDiv]

/-- Without a matching position the ratio is `0` (or NaN) and no positive
threshold is reached. -/
theorem isSimilar_of_no_match (a b : CStr) (t : ℚ) (ht : 0 < t) (h : countMatches a b = 0) :
    isSimilar a b t = false := by
  simp only [isSimilar, ratio_eq, h, sizeToFloat_zero, floatDiv_zero_left]
  split_ifs
  · rfl
  · simpa using ht

/-- When every position up to the longer length matches the ratio is exactly
`1`, for every length. -/
theorem isSimilar_of_all_match (a b : CStr) (t : ℚ) (ht : t ≤ 1)
    (hpos : 0 < max a.length b.length) (h : countMatches a b = max a.length b.length) :
    isSimilar a b t = true := by
  simp only [isSimilar, ratio_eq, h, floatDiv_self _ (sizeToFloat_pos _ hpos)]
  simpa using ht

theorem defaultThreshold_pos : 0 < defaultThreshold := by
  unfold defaultThreshold
  norm_num

theorem defaultThreshold_le_one : defaultThreshold ≤ 1 := by
  unfold defaultThreshold
  norm_num

/-- Two strings of one repeated byte match at every common position. -/
theorem countMatches_replicate (x : Byte) (n m : Nat) :
    countMatches (List.replicate n x) (List.replicate m x) = min n m := by
  have h := (countMatches_eq_min_iff (List.replicate n x) (List.replicate m x)).mpr (by
    intro i hi
    rw [List.length_replicate, List.length_replicate] at hi
    have h1 : i < n := lt_of_lt_of_le hi (min_le_left n m)
    have h2 : i < m := lt_of_lt_of_le hi (min_le_right n m)
    rw [List.getD_eq_getElem _ _ (by rw [List.length_replicate]; exact h1),
      List.getD_eq_getElem _ _ (by rw [List.length_replicate]; exact h2),
      List.getElem_replicate, List.getElem_replicate])
  rw [List.length_replicate, List.length_replicate] at h
  exact h

/-- Strings of one repeated byte whose lengths convert to the same `float`
have the ratio `1`. -/
theorem isSimilar_replicate (x : Byte) (n m : Nat) (t : ℚ) (ht : t ≤ 1) (hnm : n ≤ m)
    (hpos : 0 < n) (heq : sizeToFloat m = sizeToFloat n) :
    isSimilar (List.replicate n x) (List.replicate m x) t = true := by
  have hc := countMatches_replicate x n m
  rw [min_eq_left hnm] at hc
  simp only [isSimilar, ratio_eq, hc, List.length_replicate, max_eq_right hnm, heq,
    floatDiv_self _ (sizeToFloat_pos n hpos)]
  simpa using ht

theorem isSimilar_default_replicate (x : Byte) (n m : Nat) (hnm : n ≤ m) :
    isSimilar (List.replicate n x) (List.replicate m x) defaultThreshold =
      defaultSimilar n m := by
  rw [isSimilar_default, countMatches_replicate, List.length_replicate, List.length_replicate,
    min_eq_left hnm, max_eq_right hnm]

theorem length_ne_of_caseInsensitiveEq (a b : CStr) (h : a.length ≠ b.length) :
    ¬caseInsensitiveEq a b := fun hc => h hc.1

theorem caseInsensitiveEq_nil_cons (y : Byte) (ys : CStr) : ¬caseInsensitiveEq [] (y :: ys) := by
  simp [caseInsensitiveEq]

theorem caseInsensitiveEq_cons_nil (x : Byte) (xs : CStr) : ¬caseInsensitiveEq (x :: xs) [] := by
  simp [caseInsensitiveEq]

theorem caseInsensitiveEq_cons (x y : Byte) (xs ys : CStr) :
    caseInsensitiveEq (x :: xs) (y :: ys) ↔ tolower x = tolower y ∧ caseInsensitiveEq xs ys := by
  unfold caseInsensitiveEq
  constructor
  · rintro ⟨hl, h⟩
    refine ⟨?_, by simpa using hl, ?_⟩
    · simpa using h 0 (by simp)
    · intro i hi
      simpa using h (i + 1) (by simpa using hi)
  · rintro ⟨hx, hl, h⟩
    refine ⟨by simpa using hl, ?_⟩
    intro i hi
    cases i with
    | zero => simpa using hx
    | succ j => simpa using h j (by simpa using hi)

theorem tolower_eq_zero (c : Fin 256) (h : tolower c = 0) : c = 0 := by
  unfold tolower at h
  split at h
  · rename_i hc
    obtain ⟨h1, h2⟩ := hc
    have h3 := congrArg Fin.val h
    rw [Fin.le_def] at h1 h2
    rw [Fin.val_add] at h3
    simp at h1 h2 h3
    omega
  · exact h

theorem tolower_zero : tolower 0 = 0 := by decide

/-- Case-insensitively equal strings compare equal under `strcasecmp`. -/
theorem strcasecmp_of_caseInsensitiveEq (a b : CStr) (h : caseInsensitiveEq a b) :
    strcasecmp a b = 0 := by
  induction a generalizing b with
  | nil =>
    cases b with
    | nil => simp [strcasecmp]
    | cons y ys => exact absurd h (caseInsensitiveEq_nil_cons y ys)
  | cons x xs ih =>
    cases b with
    | nil => exact absurd h (caseInsensitiveEq_cons_nil x xs)
    | cons y ys =>
      obtain ⟨hxy, hrest⟩ := (caseInsensitiveEq_cons x y xs ys).mp h
      simp only [strcasecmp, hxy, ne_eq, not_true_eq_false, if_false]
      split
      · rfl
      · exact ih ys hrest

theorem val_sub_eq_zero (c d : Byte) (h : ((c.val : Nat) : Int) - ((d.val : Nat) : Int) = 0) :
    c = d := by
  apply Fin.ext
  omega

/-- Without NUL bytes `strcasecmp` returns `0` only on case-insensitively
equal strings. -/
theorem caseInsensitiveEq_of_strcasecmp (a b : CStr) (ha : (0 : Byte) ∉ a) (hb : (0 : Byte) ∉ b)
    (h : strcasecmp a b = 0) : caseInsensitiveEq a b := by
  induction a generalizing b with
  | nil =>
    cases b with
    | nil => simp [caseInsensitiveEq]
    | cons y ys =>
      exfalso
      simp only [strcasecmp] at h
      have h1 := val_sub_eq_zero _ _ h
      rw [tolower_zero] at h1
      have := tolower_eq_zero y h1.symm
      exact hb (by simp [this])
  | cons x xs ih =>
    cases b with
    | nil =>
      exfalso
      simp only [strcasecmp] at h
      have h1 := val_sub_eq_zero _ _ h
      rw [tolower_zero] at h1
      have := tolower_eq_zero x h1
      exact ha (by simp [this])
    | cons y ys =>
      have hx : x ≠ 0 := fun hx => ha (by simp [hx])
      simp only [strcasecmp] at h
      by_cases hxy : tolower x = tolower y
      · simp only [hxy, ne_eq, not_true_eq_false, if_false, hx] at h
        refine (caseInsensitiveEq_cons x y xs ys).mpr ⟨hxy, ih ys ?_ ?_ h⟩
        · exact fun h0 => ha (by simp [h0])
        · exact fun h0 => hb (by simp [h0])
      · simp only [ne_eq, hxy, not_false_eq_true, if_true] at h
        exact absurd (val_sub_eq_zero _ _ h) hxy

/-- The bytes of every token are bytes of the input or of the open token. -/
theorem mem_of_mem_tokensFrom (input cur token : CStr) (c : Byte)
    (ht : token ∈ tokensFrom input cur) (hc : c ∈ token) : c ∈ cur ∨ c ∈ input := by
  induction input generalizing cur with
  | nil =>
    simp only [tokensFrom] at ht
    split at ht
    · simp at ht
    · simp at ht
      subst ht
      exact Or.inl hc
  | cons x xs ih =>
    simp only [tokensFrom] at ht
    split at ht
    · rcases List.mem_cons.mp ht with rfl | ht
      · exact Or.inl hc
      · rcases ih [] ht with h | h
        · simp at h
        · exact Or.inr (by simp [h])
    · rcases ih _ ht with h | h
      · rcases List.mem_append.mp h with h | h
        · exact Or.inl h
        · simp at h
          exact Or.inr (by simp [h])
      · exact Or.inr (by simp [h])

theorem matchPositive_eq_true_iff (text : CStr) (terms : List CStr) :
    matchPositive text terms = true ↔
      (∃ token ∈ tokenize text, ∃ term ∈ terms, strcasecmp token term = 0) ∨
      (∃ token ∈ tokenize text, ∃ term ∈ terms, isSimilar token term defaultThreshold = true) := by
  simp only [matchPositive]
  split
  · rename_i h
    simp only [List.any_eq_true, beq_iff_eq] at h
    simp [h]
  · rename_i h1
    simp only [List.any_eq_true, beq_iff_eq] at h1
    split
    · rename_i h2
      simp only [List.any_eq_true] at h2
      simp [h2]
    · rename_i h2
      simp only [List.any_eq_true] at h2
      simp [h1, h2]

theorem label_ne : utf8 "肯定" ≠ utf8 "否定" := by decide

/-! ### The claims -/

/-- C1: whenever some token of `tokenize text` is case-insensitively equal to
some reference term, `matchPositive text terms` is true and
`classifyResponse text terms` is the affirmative label "肯定". -/
theorem C1_exact_match_is_affirmative (text : CStr) (terms : List CStr)
    (h : ∃ token ∈ tokenize text, ∃ term ∈ terms, caseInsensitiveEq token term) :
    matchPositive text terms = true ∧ classifyResponse text terms = utf8 "肯定" := by
  obtain ⟨token, htok, term, hterm, hci⟩ := h
  have hm : matchPositive text terms = true :=
    (matchPositive_eq_true_iff text terms).mpr
      (Or.inl ⟨token, htok, term, hterm, strcasecmp_of_caseInsensitiveEq token term hci⟩)
  exact ⟨hm, by simp [classifyResponse, hm]⟩

theorem C1_exact_match_is_affirmative_witness :
    (∃ token ∈ tokenize (utf8 "well yes then"), ∃ term ∈ positiveWords,
        caseInsensitiveEq token term) ∧
      matchPositive (utf8 "well yes then") positiveWords = true ∧
      classifyResponse (utf8 "well yes then") positiveWords = utf8 "肯定" :=
  have h : ∃ token ∈ tokenize (utf8 "well yes then"), ∃ term ∈ positiveWords,
      caseInsensitiveEq token term :=
    ⟨utf8 "yes", by decide, utf8 "YES", by decide, by decide⟩
  ⟨h, C1_exact_match_is_affirmative (utf8 "well yes then") positiveWords h⟩

/-- C2, as stated, fails on strings with a NUL byte: the only token of
"a\0b" is neither case-insensitively equal nor similar to the term "a", yet
`strcasecmp` stops at the NUL byte and the text is classified "肯定". -/
theorem C2_no_match_counterexample :
    (∀ token ∈ tokenize [97, 0, 98], ∀ term ∈ [[(97 : Byte)]],
        ¬caseInsensitiveEq token term) ∧
      (∀ token ∈ tokenize [97, 0, 98], ∀ term ∈ [[(97 : Byte)]],
        isSimilar token term defaultThreshold = false) ∧
      matchPositive [97, 0, 98] [[97]] = true ∧
      classifyResponse [97, 0, 98] [[97]] = utf8 "肯定" := by
  simp only [classifyResponse, matchPositive, isSimilar_default]
  decide

/-- C2 (amended): for a text and reference terms without NUL bytes, if no
token is case-insensitively equal to a term and no (token, term) pair is
similar under the default threshold, `matchPositive` is false and
`classifyResponse` is the negative label "否定". -/
theorem C2_no_match_is_negative (text : CStr) (terms : List CStr)
    (hText : (0 : Byte) ∉ text) (hTerms : ∀ term ∈ terms, (0 : Byte) ∉ term)
    (hExact : ∀ token ∈ tokenize text, ∀ term ∈ terms, ¬caseInsensitiveEq token term)
    (hFuzzy : ∀ token ∈ tokenize text, ∀ term ∈ terms,
      isSimilar token term defaultThreshold = false) :
    matchPositive text terms = false ∧ classifyResponse text terms = utf8 "否定" := by
  have hm : matchPositive text terms = false := by
    rw [← Bool.not_eq_true, matchPositive_eq_true_iff]
    rintro (⟨token, htok, term, hterm, h0⟩ | ⟨token, htok, term, hterm, hs⟩)
    · have hnul : (0 : Byte) ∉ token := by
        intro h0mem
        rw [tokenize_eq] at htok
        rcases mem_of_mem_tokensFrom text [] token 0 htok h0mem with h | h
        · simp at h
        · exact hText h
      exact hExact token htok term hterm
        (caseInsensitiveEq_of_strcasecmp token term hnul (hTerms term hterm) h0)
    · rw [hFuzzy token htok term hterm] at hs
      exact Bool.false_ne_true hs
  exact ⟨hm, by simp [classifyResponse, hm]⟩

theorem C2_no_match_is_negative_witness :
    (0 : Byte) ∉ utf8 "no thanks" ∧ (∀ term ∈ positiveWords, (0 : Byte) ∉ term) ∧
      (∀ token ∈ tokenize (utf8 "no thanks"), ∀ term ∈ positiveWords,
        ¬caseInsensitiveEq token term) ∧
      (∀ token ∈ tokenize (utf8 "no thanks"), ∀ term ∈ positiveWords,
        isSimilar token term defaultThreshold = false) ∧
      matchPositive (utf8 "no thanks") positiveWords = false ∧
      classifyResponse (utf8 "no thanks") positiveWords = utf8 "否定" :=
  have h1 : (0 : Byte) ∉ utf8 "no thanks" := by decide
  have h2 : ∀ term ∈ positiveWords, (0 : Byte) ∉ term := by decide
  have h3 : ∀ token ∈ tokenize (utf8 "no thanks"), ∀ term ∈ positiveWords,
      ¬caseInsensitiveEq token term := by decide
  have h4 : ∀ token ∈ tokenize (utf8 "no thanks"), ∀ term ∈ positiveWords,
      isSimilar token term defaultThreshold = false := by
    simp only [isSimilar_default]
    decide
  ⟨h1, h2, h3, h4, C2_no_match_is_negative (utf8 "no thanks") positiveWords h1 h2 h3 h4⟩

/-- C3, as stated, fails: for "abcd" and "abcde" at the threshold `0.8f` the
exact ratio `4 / 5` is below the threshold, yet the binary32 quotient
`4.0f / 5` rounds up to `0.8f` and `isSimilar` is true. -/
theorem C3_exact_ratio_counterexample :
    ¬(utf8 "abcd" = [] ∧ utf8 "abcde" = []) ∧
      isSimilar (utf8 "abcd") (utf8 "abcde") (13421773 / 16777216) = true ∧
      ¬((13421773 / 16777216 : ℚ) ≤ (matchesSpec (utf8 "abcd") (utf8 "abcde") : ℚ) /
        ((max (utf8 "abcd").length (utf8 "abcde").length : Nat) : ℚ)) := by
  have hsim : isSimilar (utf8 "abcd") (utf8 "abcde") defaultThreshold = true := by
    rw [isSimilar_default]
    decide
  have hm : matchesSpec (utf8 "abcd") (utf8 "abcde") = 4 := by
    rw [← countMatches_eq_spec]
    decide
  have hl : max (utf8 "abcd").length (utf8 "abcde").length = 5 := by decide
  refine ⟨by decide, hsim, ?_⟩
  rw [hm, hl]
  norm_num

/-- C3 (amended): for strings `a`, `b` that are not both empty the ratio is a
number `r`, the binary32 quotient of `matches` and `max(len a, len b)` (both
converted to `float`), with `matches` the number of positions below
`min(len a, len b)` at which the lowered bytes agree; `isSimilar a b t` is
true exactly when `r >= t`; and for strings shorter than `2^24` bytes `r`
differs from the exact rational `matches / max(len a, len b)` by at most
`2^-25`. -/
theorem C3_isSimilar_iff_float_ratio_ge (a b : CStr) (t : ℚ) (h : ¬(a = [] ∧ b = [])) :
    ∃ r, floatDiv (sizeToFloat (matchesSpec a b)) (sizeToFloat (max a.length b.length)) =
        some r ∧
      (isSimilar a b t = true ↔ t ≤ r) ∧
      (max a.length b.length < 2 ^ 24 →
        |r - (matchesSpec a b : ℚ) / ((max a.length b.length : Nat) : ℚ)| ≤ 1 / 2 ^ 25) := by
  have hpos := max_length_pos a b h
  obtain ⟨r, hr⟩ := ratio_of_pos a b hpos
  have hr2 := hr
  rw [ratio_eq, countMatches_eq_spec] at hr2
  refine ⟨r, hr2, by simp only [isSimilar, hr, decide_eq_true_eq], ?_⟩
  intro h24
  have hm : matchesSpec a b ≤ max a.length b.length := by
    rw [← countMatches_eq_spec]
    exact (countMatches_le a b).trans min_le_max
  rw [sizeToFloat_small _ h24, sizeToFloat_small _ (lt_of_le_of_lt hm h24)] at hr2
  obtain ⟨r2, hr3, herr⟩ := floatDiv_error (matchesSpec a b) (max a.length b.length) hpos hm
  rw [hr2] at hr3
  rw [Option.some.inj hr3]
  exact herr

theorem C3_isSimilar_iff_float_ratio_ge_witness :
    ¬(utf8 "Okay" = [] ∧ utf8 "OKAYS" = []) ∧
      ∃ r, floatDiv (sizeToFloat (matchesSpec (utf8 "Okay") (utf8 "OKAYS")))
          (sizeToFloat (max (utf8 "Okay").length (utf8 "OKAYS").length)) = some r ∧
        (isSimilar (utf8 "Okay") (utf8 "OKAYS") (4 / 5) = true ↔ (4 / 5 : ℚ) ≤ r) ∧
        (max (utf8 "Okay").length (utf8 "OKAYS").length < 2 ^ 24 →
          |r - (matchesSpec (utf8 "Okay") (utf8 "OKAYS") : ℚ) /
            ((max (utf8 "Okay").length (utf8 "OKAYS").length : Nat) : ℚ)| ≤ 1 / 2 ^ 25) :=
  ⟨by decide, C3_isSimilar_iff_float_ratio_ge (utf8 "Okay") (utf8 "OKAYS") (4 / 5) (by decide)⟩

/-- C4: on the code the utterance "好的，开始吧" is one single token (there is
no ASCII space to split at), it matches no reference term exactly or
approximately, and it is classified "否定", against the list `["好的"]` as
against the pipeline's `positiveWords`. -/
theorem C4_haode_kaishiba_is_negative :
    tokenize (utf8 "好的，开始吧") = [utf8 "好的，开始吧"] ∧
      utf8 "好的" ∈ positiveWords ∧
      matchPositive (utf8 "好的，开始吧") [utf8 "好的"] = false ∧
      classifyResponse (utf8 "好的，开始吧") [utf8 "好的"] = utf8 "否定" ∧
      matchPositive (utf8 "好的，开始吧") positiveWords = false ∧
      classifyResponse (utf8 "好的，开始吧") positiveWords = utf8 "否定" := by
  simp only [classifyResponse, matchPositive, isSimilar_default]
  decide

/-- C5, as stated, fails twice. Two empty strings have equal length and
agree at every position, but `isSimilar "" "" 1.0` is false. And a string of
`2^24` bytes `a` against one of `2^24 + 1` bytes `a` has `isSimilar` true at
`1.0` although the lengths differ: `2^24 + 1` converts to the `float` `2^24`
and the quotient is exactly `1.0`. -/
theorem C5_isSimilar_one_counterexample :
    (caseInsensitiveEq [] [] ∧ isSimilar [] [] 1 = false) ∧
      (isSimilar (List.replicate 16777216 97) (List.replicate 16777217 97) 1 = true ∧
        ¬caseInsensitiveEq (List.replicate 16777216 97) (List.replicate 16777217 97)) :=
  ⟨⟨by decide, isSimilar_nil_nil 1⟩,
    isSimilar_replicate 97 16777216 16777217 1 (le_refl 1) (by norm_num) (by norm_num)
      (by rw [sizeToFloat_16777217, sizeToFloat_exact 16777216 (by norm_num)]),
    length_ne_of_caseInsensitiveEq _ _ (by
      rw [List.length_replicate, List.length_replicate]
      norm_num)⟩

/-- C5 (amended): for strings `a`, `b` that are not both empty and at most
`2^24` bytes long, `isSimilar a b 1.0` is true exactly when `a` and `b` have
equal length and are identical case-insensitively at every position. -/
theorem C5_isSimilar_one_iff (a b : CStr) (h : ¬(a = [] ∧ b = []))
    (hlen : max a.length b.length ≤ 2 ^ 24) :
    isSimilar a b 1 = true ↔ caseInsensitiveEq a b := by
  have hpos := max_length_pos a b h
  have hle := countMatches_le a b
  unfold caseInsensitiveEq
  constructor
  · intro hsim
    have hall : countMatches a b = max a.length b.length := by
      by_contra hne
      have hlt : countMatches a b < max a.length b.length :=
        lt_of_le_of_ne (hle.trans min_le_max) hne
      rcases Nat.eq_zero_or_pos (countMatches a b) with h0 | h0
      · rw [isSimilar_of_no_match a b 1 (by norm_num) h0] at hsim
        exact Bool.false_ne_true hsim
      · obtain ⟨r, hr, hr1⟩ := floatDiv_lt_one _ _ h0 hlt (by simpa using hlen)
        simp only [isSimilar, ratio_eq, sizeToFloat_exact _ hlen,
          sizeToFloat_exact _ (hlt.le.trans hlen), hr, decide_eq_true_eq] at hsim
        linarith
    have hlen2 : a.length = b.length := by omega
    have hmin : countMatches a b = min a.length b.length := by omega
    refine ⟨hlen2, fun i hi => (countMatches_eq_min_iff a b).mp hmin i ?_⟩
    omega
  · rintro ⟨hlen2, hall⟩
    have hmin : countMatches a b = min a.length b.length :=
      (countMatches_eq_min_iff a b).mpr (fun i hi => hall i (by omega))
    exact isSimilar_of_all_match a b 1 (le_refl 1) hpos (by omega)

theorem C5_isSimilar_one_iff_witness :
    ¬(utf8 "Yes" = [] ∧ utf8 "yEs" = []) ∧
      max (utf8 "Yes").length (utf8 "yEs").length ≤ 2 ^ 24 ∧
      (isSimilar (utf8 "Yes") (utf8 "yEs") 1 = true ↔
        caseInsensitiveEq (utf8 "Yes") (utf8 "yEs")) :=
  ⟨by decide, by decide, C5_isSimilar_one_iff (utf8 "Yes") (utf8 "yEs") (by decide) (by decide)⟩

/-- C6: `isSimilar "" "" t` is false for every threshold `t`; the undefined
ratio `0 / 0` is resolved as not similar. -/
theorem C6_isSimilar_empty_empty (t : ℚ) :
    ratio [] [] = none ∧ isSimilar [] [] t = false := by
  refine ⟨?_, isSimilar_nil_nil t⟩
  have hc : countMatches [] [] = 0 := rfl
  rw [ratio_eq, hc]
  simp [sizeToFloat_zero, floatDiv]

/-- C7: for every non-empty string `a` and every threshold `t <= 1.0`,
`isSimilar a a t` is true. -/
theorem C7_isSimilar_self (a : CStr) (t : ℚ) (ha : a ≠ []) (ht : t ≤ 1) :
    isSimilar a a t = true := by
  have hpos : 0 < max a.length a.length := by
    simpa using List.length_pos.mpr ha
  have hc : countMatches a a = a.length := by
    have := (countMatches_eq_min_iff a a).mpr (fun i _ => rfl)
    simpa using this
  exact isSimilar_of_all_match a a t ht hpos (by rw [hc, max_self])

theorem C7_isSimilar_self_witness :
    utf8 "好的" ≠ [] ∧ (4 / 5 : ℚ) ≤ 1 ∧ isSimilar (utf8 "好的") (utf8 "好的") (4 / 5) = true :=
  ⟨by decide, by norm_num, C7_isSimilar_self (utf8 "好的") (4 / 5) (by decide) (by norm_num)⟩

theorem getLast?_cons_eq_some (c x : Byte) (rest : CStr) :
    (c :: rest).getLast? = some x ↔ (rest = [] ∧ c = x) ∨ rest.getLast? = some x := by
  cases rest with
  | nil => simp
  | cons r rs => simp [List.getLast?_cons_cons]

theorem length_tokensFrom (input cur : CStr) :
    (tokensFrom input cur).length =
      input.count space +
        (if (input = [] ∧ cur = []) ∨ input.getLast? = some space then 0 else 1) := by
  induction input generalizing cur with
  | nil => cases cur <;> simp [tokensFrom]
  | cons c rest ih =>
    by_cases hc : c = space
    · subst hc
      rw [tokensFrom, if_pos rfl, List.length_cons, ih, List.count_cons_self]
      have hiff : ((space :: rest = [] ∧ cur = []) ∨ (space :: rest).getLast? = some space) ↔
          ((rest = [] ∧ ([] : CStr) = []) ∨ rest.getLast? = some space) := by
        rw [getLast?_cons_eq_some]
        simp
      simp only [hiff]
      omega
    · rw [tokensFrom, if_neg hc, ih, List.count_cons_of_ne (Ne.symm hc)]
      have hiff : ((c :: rest = [] ∧ cur = []) ∨ (c :: rest).getLast? = some space) ↔
          ((rest = [] ∧ cur ++ [c] = []) ∨ rest.getLast? = some space) := by
        rw [getLast?_cons_eq_some]
        simp [hc]
      simp only [hiff]

/-- C8, as stated, fails for the empty string and for a string that ends with
a space: `tokenize ""` has no token and `tokenize "a "` has one, while the
number of spaces plus one is 1 and 2. -/
theorem C8_tokenize_length_fails :
    tokenize (utf8 "") = [] ∧ (tokenize (utf8 "")).length ≠ (utf8 "").count space + 1 ∧
      tokenize (utf8 "a ") = [utf8 "a"] ∧
      (tokenize (utf8 "a ")).length ≠ (utf8 "a ").count space + 1 := by
  decide

/-- C8 (amended): `tokenize text` has as many tokens as `text` has spaces,
plus one when `text` is non-empty and does not end with a space. -/
theorem C8_tokenize_length (text : CStr) :
    (tokenize text).length =
      text.count space + (if text = [] ∨ text.getLast? = some space then 0 else 1) := by
  rw [tokenize_eq, length_tokensFrom]
  simp

theorem intercalate_cons_cons (sep t u : CStr) (rest : List CStr) :
    List.intercalate sep (t :: u :: rest) = t ++ sep ++ List.intercalate sep (u :: rest) := by
  simp [List.intercalate, List.intersperse]

/-- C9: for every non-empty list `ts` of strings without a space whose last
element is non-empty, tokenizing the strings joined by single spaces gives
back `ts`. -/
theorem C9_tokenize_join (ts : List CStr) (hne : ts ≠ []) (hsp : ∀ t ∈ ts, space ∉ t)
    (hlast : ts.getLast hne ≠ []) :
    tokenize (List.intercalate [space] ts) = ts := by
  rw [tokenize_eq]
  induction ts with
  | nil => exact absurd rfl hne
  | cons t rest ih =>
    have ht : ∀ c ∈ t, c ≠ space := by
      intro c hc hcs
      exact hsp t (by simp) (hcs ▸ hc)
    cases rest with
    | nil =>
      have htne : t ≠ [] := by simpa using hlast
      have : List.intercalate [space] [t] = t := by simp [List.intercalate]
      rw [this, tokensFrom_no_delim t [] ht]
      simp [htne]
    | cons u us =>
      rw [intercalate_cons_cons, List.append_assoc, List.singleton_append,
        tokensFrom_delim t _ [] ht]
      have hrest := ih (by simp) (fun x hx => hsp x (by simp [hx]))
        (by simpa [List.getLast_cons] using hlast)
      rw [hrest]
      simp

theorem C9_tokenize_join_witness :
    [utf8 "a", utf8 "b", utf8 "", utf8 "c"] ≠ [] ∧
      (∀ t ∈ [utf8 "a", utf8 "b", utf8 "", utf8 "c"], space ∉ t) ∧
      List.intercalate [space] [utf8 "a", utf8 "b", utf8 "", utf8 "c"] = utf8 "a b  c" ∧
      tokenize (List.intercalate [space] [utf8 "a", utf8 "b", utf8 "", utf8 "c"]) =
        [utf8 "a", utf8 "b", utf8 "", utf8 "c"] :=
  ⟨by decide, by decide, by decide,
    C9_tokenize_join [utf8 "a", utf8 "b", utf8 "", utf8 "c"] (by decide) (by decide) (by decide)⟩

/-- C10: `matchPositive` and `classifyResponse` do not depend on the order of
the reference terms: two lists that are permutations of each other give the
same result on every text. -/
theorem C10_matchPositive_perm (text : CStr) (terms terms2 : List CStr) (h : terms.Perm terms2) :
    matchPositive text terms = matchPositive text terms2 ∧
      classifyResponse text terms = classifyResponse text terms2 := by
  have hm : matchPositive text terms = matchPositive text terms2 := by
    rw [Bool.eq_iff_iff, matchPositive_eq_true_iff, matchPositive_eq_true_iff]
    simp only [h.mem_iff]
  exact ⟨hm, by simp [classifyResponse, hm]⟩

theorem C10_matchPositive_perm_witness :
    [utf8 "OK", utf8 "好的", utf8 "YES"].Perm [utf8 "YES", utf8 "OK", utf8 "好的"] ∧
      matchPositive (utf8 "yes please") [utf8 "OK", utf8 "好的", utf8 "YES"] =
        matchPositive (utf8 "yes please") [utf8 "YES", utf8 "OK", utf8 "好的"] ∧
      classifyResponse (utf8 "yes please") [utf8 "OK", utf8 "好的", utf8 "YES"] =
        classifyResponse (utf8 "yes please") [utf8 "YES", utf8 "OK", utf8 "好的"] :=
  ⟨by decide, C10_matchPositive_perm (utf8 "yes please") _ _ (by decide)⟩

/-- C11: the utterance "不了，不用了" is one single token that matches no
entry of `positiveWords` exactly or approximately, and it is classified
"否定". -/
theorem C11_buliao_is_negative :
    tokenize (utf8 "不了，不用了") = [utf8 "不了，不用了"] ∧
      matchPositive (utf8 "不了，不用了") positiveWords = false ∧
      classifyResponse (utf8 "不了，不用了") positiveWords = utf8 "否定" := by
  simp only [classifyResponse, matchPositive, isSimilar_default]
  decide

/-! ### The pipeline -/

theorem getD_mod_mem (l : List CStr) (hl : l ≠ []) (r : Nat) :
    l.getD (r % l.length) [] ∈ l := by
  have hlt : r % l.length < l.length := Nat.mod_lt _ (List.length_pos.mpr hl)
  rw [List.getD_eq_getElem l [] hlt]
  exact List.getElem_mem hlt

theorem addLengthVariation_valid (phrase : CStr) (g : RandState) (h : phrase ∈ allPhrases) :
    validSentence (addLengthVariation phrase g).1 := by
  unfold addLengthVariation
  simp only
  split
  · exact Or.inr ⟨_, getD_mod_mem contexts (by decide) _, phrase, h, rfl⟩
  · exact Or.inl h

/-- The generation loop pushes back one well-formed sentence per iteration. -/
theorem generateSentences_spec (n : Nat) (g : RandState) (acc : List CStr) :
    (generateSentences n g acc).1.length = acc.length + n ∧
      ∀ s ∈ (generateSentences n g acc).1, s ∈ acc ∨ validSentence s := by
  induction n generalizing g acc with
  | zero => exact ⟨by simp [generateSentences], fun s hs => Or.inl hs⟩
  | succ n ih =>
    rw [generateSentences]
    obtain ⟨hlen, hall⟩ := ih
      (addLengthVariation (allPhrases.getD ((rand g).1 % allPhrases.length) []) (rand g).2).2
      (acc ++ [(addLengthVariation (allPhrases.getD ((rand g).1 % allPhrases.length) [])
        (rand g).2).1])
    refine ⟨by rw [hlen]; simp; omega, ?_⟩
    intro s hs
    rcases hall s hs with h | h
    · rcases List.mem_append.mp h with h | h
      · exact Or.inl h
      · right
        rw [List.mem_singleton.mp h]
        exact addLengthVariation_valid _ _ (getD_mod_mem allPhrases (by decide) _)
    · exact Or.inr h

theorem results_eq (g : RandState) (fileOpens : Bool) :
    (microwaveTestPipeline g fileOpens).results =
      (generateSentences 300 g []).1.map
        (fun sentence => (sentence, classifyResponse sentence positiveWords)) := by
  simp only [microwaveTestPipeline]

theorem results_valid (g : RandState) (fileOpens : Bool) (r : CStr × CStr)
    (hr : r ∈ (microwaveTestPipeline g fileOpens).results) :
    validSentence r.1 ∧ r.2 = classifyResponse r.1 positiveWords := by
  rw [results_eq] at hr
  obtain ⟨s, hs, rfl⟩ := List.mem_map.mp hr
  refine ⟨?_, rfl⟩
  rcases (generateSentences_spec 300 g []).2 s hs with h | h
  · simp at h
  · exact h

theorem results_length (g : RandState) (fileOpens : Bool) :
    (microwaveTestPipeline g fileOpens).results.length = 300 := by
  rw [results_eq, List.length_map, (generateSentences_spec 300 g []).1]
  simp

theorem written_eq (g : RandState) :
    (microwaveTestPipeline g true).written =
      some ((microwaveTestPipeline g true).results.flatMap reportLine) := by
  simp only [microwaveTestPipeline, if_true]

/-- C12: for every sequence of values of the random source the pipeline
returns exactly 300 results, and the text of each is one of the 26 seed
phrases or one of the 10 contexts directly in front of a seed phrase. -/
theorem C12_pipeline_results_shape (g : RandState) (fileOpens : Bool) :
    allPhrases.length = 26 ∧ contexts.length = 10 ∧
      (microwaveTestPipeline g fileOpens).results.length = 300 ∧
      ∀ r ∈ (microwaveTestPipeline g fileOpens).results,
        r.1 ∈ allPhrases ∨ ∃ context ∈ contexts, ∃ phrase ∈ allPhrases,
          r.1 = context ++ phrase := by
  refine ⟨by decide, by decide, results_length g fileOpens, ?_⟩
  · intro r hr
    exact (results_valid g fileOpens r hr).1

/-- C13, as stated, fails: when the file cannot be opened the pipeline still
returns its 300 results, nothing is written, and `main` prints its completion
message and returns the exit status 0. -/
theorem C13_open_failure_not_surfaced :
    (microwaveTestPipeline { values := fun _ => 0, calls := 0 } false).written = none ∧
      (microwaveTestPipeline { values := fun _ => 0, calls := 0 } false).results.length = 300 ∧
      (main { values := fun _ => 0, calls := 0 } false).exitCode = 0 ∧
      (main { values := fun _ => 0, calls := 0 } false).stdout.getLast? = some (utf8
        "测试完成，结果已保存到文件 \x27microwave_test_sentences_combined.txt\x27。") := by
  refine ⟨rfl, results_length _ _, rfl, ?_⟩
  simp [main]

/-- C13 (amended): when the output file cannot be opened no error is raised:
nothing is written, the pipeline returns the same results as when the file
opens, and `main` returns the exit status 0. -/
theorem C13_open_failure_is_silent (g : RandState) :
    (microwaveTestPipeline g false).written = none ∧
      (microwaveTestPipeline g false).results = (microwaveTestPipeline g true).results ∧
      (main g false).written = none ∧
      (main g false).exitCode = 0 :=
  ⟨rfl, rfl, rfl, rfl⟩

theorem mem_candidateSentences (s : CStr) (h : validSentence s) : s ∈ candidateSentences := by
  unfold candidateSentences
  rcases h with h | ⟨context, hc, phrase, hp, rfl⟩
  · exact List.mem_append_left _ h
  · exact List.mem_append_right _
      (List.mem_flatMap.mpr ⟨context, hc, List.mem_map.mpr ⟨phrase, hp, rfl⟩⟩)

set_option maxRecDepth 100000 in
/-- Among the 286 sentences the pipeline can generate only "启动烹饪" is
classified "肯定". -/
theorem candidateSentences_classified :
    ∀ s ∈ candidateSentences,
      (classifyResponse s positiveWords = utf8 "肯定" ↔ s = utf8 "启动烹饪") := by
  simp only [classifyResponse, matchPositive, isSimilar_default]
  decide!

set_option maxRecDepth 100000 in
theorem candidateSentences_single_token :
    ∀ s ∈ candidateSentences, space ∉ s ∧ newline ∉ s ∧ tokenize s = [s] := by
  decide!

/-- C17: in every run of the pipeline a result carries the label "肯定"
exactly when its sentence is "启动烹饪"; every sentence is free of the ASCII
space and is a single token, and every other sentence is labelled "否定". -/
theorem C17_only_qidong_pengren_affirmative (g : RandState) (fileOpens : Bool) :
    ∀ r ∈ (microwaveTestPipeline g fileOpens).results,
      space ∉ r.1 ∧ tokenize r.1 = [r.1] ∧
        (r.2 = utf8 "肯定" ↔ r.1 = utf8 "启动烹饪") ∧
        (r.1 ≠ utf8 "启动烹饪" → r.2 = utf8 "否定") := by
  intro r hr
  obtain ⟨hv, hl⟩ := results_valid g fileOpens r hr
  have hmem := mem_candidateSentences r.1 hv
  have hiff := candidateSentences_classified r.1 hmem
  obtain ⟨hsp, _, htok⟩ := candidateSentences_single_token r.1 hmem
  refine ⟨hsp, htok, by rw [hl]; exact hiff, ?_⟩
  intro hne
  rw [hl]
  have hnot : ¬classifyResponse r.1 positiveWords = utf8 "肯定" := fun h => hne (hiff.mp h)
  unfold classifyResponse at hnot ⊢
  split
  · rename_i hm
    rw [if_pos hm] at hnot
    exact absurd rfl hnot
  · rfl

set_option maxRecDepth 100000 in
theorem C17_only_qidong_pengren_affirmative_witness :
    (utf8 "启动烹饪", utf8 "肯定") ∈
        (microwaveTestPipeline { values := fun _ => 1, calls := 0 } true).results ∧
      (space ∉ utf8 "启动烹饪" ∧ tokenize (utf8 "启动烹饪") = [utf8 "启动烹饪"] ∧
        (utf8 "肯定" = utf8 "肯定" ↔ utf8 "启动烹饪" = utf8 "启动烹饪") ∧
        (utf8 "启动烹饪" ≠ utf8 "启动烹饪" → utf8 "肯定" = utf8 "否定")) :=
  have h : (utf8 "启动烹饪", utf8 "肯定") ∈
      (microwaveTestPipeline { values := fun _ => 1, calls := 0 } true).results := by
    simp only [microwaveTestPipeline, classifyResponse, matchPositive, isSimilar_default]
    decide!
  ⟨h, C17_only_qidong_pengren_affirmative { values := fun _ => 1, calls := 0 } true
    (utf8 "启动烹饪", utf8 "肯定") h⟩

theorem readLines_no_newline (line cur : CStr) (h : newline ∉ line) :
    readLines line cur = if (cur ++ line).isEmpty then [] else [cur ++ line] := by
  induction line generalizing cur with
  | nil => simp [readLines]
  | cons t ts ih =>
    have ht : t ≠ newline := fun e => h (by simp [e])
    rw [readLines, if_neg ht, ih _ (fun hm => h (by simp [hm]))]
    simp

theorem readLines_newline (line rest cur : CStr) (h : newline ∉ line) :
    readLines (line ++ newline :: rest) cur = (cur ++ line) :: readLines rest [] := by
  induction line generalizing cur with
  | nil => simp [readLines]
  | cons t ts ih =>
    have ht : t ≠ newline := fun e => h (by simp [e])
    rw [List.cons_append, readLines, if_neg ht, ih _ (fun hm => h (by simp [hm]))]
    simp

/-- Reading a report back line by line gives one line per result. -/
theorem readLines_report (results : List (CStr × CStr))
    (h : ∀ r ∈ results, newline ∉ r.1 ++ utf8 " => " ++ r.2) :
    readLines (results.flatMap reportLine) [] =
      results.map (fun r => r.1 ++ utf8 " => " ++ r.2) := by
  induction results with
  | nil => simp [readLines]
  | cons r rs ih =>
    have hr := h r (by simp)
    rw [List.flatMap_cons, reportLine, List.append_assoc _ [newline], List.singleton_append,
      readLines_newline _ _ [] hr, ih (fun x hx => h x (by simp [hx]))]
    simp

theorem splitAtLast_affirmative (text : CStr) :
    splitAtLast (utf8 " => ") (text ++ utf8 " => " ++ utf8 "肯定") =
      some (text, utf8 "肯定") := by
  have e1 : utf8 " => " = [32, 61, 62, 32] := by decide
  have e2 : utf8 "肯定" = [232, 130, 175, 229, 174, 154] := by decide
  rw [e1, e2]
  simp [splitAtLast, splitAtFirst, List.isPrefixOf]

theorem splitAtLast_negative (text : CStr) :
    splitAtLast (utf8 " => ") (text ++ utf8 " => " ++ utf8 "否定") =
      some (text, utf8 "否定") := by
  have e1 : utf8 " => " = [32, 61, 62, 32] := by decide
  have e2 : utf8 "否定" = [229, 144, 166, 229, 174, 154] := by decide
  rw [e1, e2]
  simp [splitAtLast, splitAtFirst, List.isPrefixOf]

theorem classifyResponse_label (text : CStr) (terms : List CStr) :
    classifyResponse text terms = utf8 "肯定" ∨ classifyResponse text terms = utf8 "否定" := by
  unfold classifyResponse
  split
  · exact Or.inl rfl
  · exact Or.inr rfl

/-- C14: when the output file opens, the text written for the 300 results of
a run reads back as exactly 300 lines, the i-th being the text of the i-th
result, `" => "` and its label; every label is one of the two fixed labels,
and splitting each line at its final `" => "` gives back every result, in
order. -/
theorem C14_report_round_trip (g : RandState) :
    ∃ content, (microwaveTestPipeline g true).written = some content ∧
      readLines content [] =
        (microwaveTestPipeline g true).results.map (fun r => r.1 ++ utf8 " => " ++ r.2) ∧
      (readLines content []).length = 300 ∧
      (∀ r ∈ (microwaveTestPipeline g true).results,
        r.2 = utf8 "肯定" ∨ r.2 = utf8 "否定") ∧
      parseReport content = (microwaveTestPipeline g true).results.map some := by
  have hlabel : ∀ r ∈ (microwaveTestPipeline g true).results,
      r.2 = utf8 "肯定" ∨ r.2 = utf8 "否定" := by
    intro r hr
    rw [(results_valid g true r hr).2]
    exact classifyResponse_label _ _
  have hnl : ∀ r ∈ (microwaveTestPipeline g true).results,
      newline ∉ r.1 ++ utf8 " => " ++ r.2 := by
    intro r hr
    have h1 : newline ∉ r.1 :=
      (candidateSentences_single_token r.1
        (mem_candidateSentences r.1 (results_valid g true r hr).1)).2.1
    have h2 : newline ∉ utf8 " => " := by decide
    have h3 : newline ∉ r.2 := by
      rcases hlabel r hr with h | h <;> rw [h] <;> decide
    simp only [List.mem_append, not_or]
    exact ⟨⟨h1, h2⟩, h3⟩
  have hlines := readLines_report (microwaveTestPipeline g true).results hnl
  refine ⟨(microwaveTestPipeline g true).results.flatMap reportLine, written_eq g, hlines, ?_,
    hlabel, ?_⟩
  · rw [hlines, List.length_map]
    exact results_length g true
  · rw [parseReport, hlines, List.map_map]
    apply List.map_congr_left
    intro r hr
    obtain ⟨text, label⟩ := r
    rcases hlabel (text, label) hr with h | h
    · simp only at h
      subst h
      exact splitAtLast_affirmative text
    · simp only at h
      subst h
      exact splitAtLast_negative text

/-! ### Properties of the matcher -/

theorem strcasecmp_nil_ne_zero (w : CStr) (hw : w ≠ []) (h0 : w.head? ≠ some 0) :
    strcasecmp [] w ≠ 0 := by
  cases w with
  | nil => exact absurd rfl hw
  | cons c r =>
    intro h
    simp only [strcasecmp] at h
    have h1 := val_sub_eq_zero _ _ h
    rw [tolower_zero] at h1
    have := tolower_eq_zero c h1.symm
    exact h0 (by simp [this])

theorem isSimilar_nil_left (w : CStr) : isSimilar [] w defaultThreshold = false := by
  have h := countMatches_le [] w
  simp only [List.length_nil, Nat.zero_min, Nat.le_zero] at h
  exact isSimilar_of_no_match [] w defaultThreshold defaultThreshold_pos h

/-- C15, as stated, fails for the empty reference term: the only token of
the text " " is empty, `strcasecmp` of two empty strings is `0`, and the text
is classified "肯定". -/
theorem C15_empty_token_counterexample :
    (∀ token ∈ tokenize [space], token = []) ∧ strcasecmp [] [] = 0 ∧
      matchPositive [space] [[]] = true ∧ classifyResponse [space] [[]] = utf8 "肯定" := by
  simp only [classifyResponse, matchPositive, isSimilar_default]
  decide

/-- C15 (amended): `isSimilar "" w` is false for every `w`, and the empty
token is no exact match of a reference term that is non-empty and does not
begin with a NUL byte; against such terms a text all of whose tokens are
empty is classified "否定". -/
theorem C15_empty_tokens_fail (text : CStr) (terms : List CStr)
    (hTerms : ∀ w ∈ terms, w ≠ [] ∧ w.head? ≠ some 0)
    (hEmpty : ∀ token ∈ tokenize text, token = []) :
    (∀ w : CStr, isSimilar [] w defaultThreshold = false) ∧
      (∀ w ∈ terms, strcasecmp [] w ≠ 0) ∧
      matchPositive text terms = false ∧ classifyResponse text terms = utf8 "否定" := by
  have hs : ∀ w ∈ terms, strcasecmp [] w ≠ 0 :=
    fun w hw => strcasecmp_nil_ne_zero w (hTerms w hw).1 (hTerms w hw).2
  have hm : matchPositive text terms = false := by
    rw [← Bool.not_eq_true, matchPositive_eq_true_iff]
    rintro (⟨token, htok, term, hterm, h0⟩ | ⟨token, htok, term, hterm, h1⟩)
    · rw [hEmpty token htok] at h0
      exact hs term hterm h0
    · rw [hEmpty token htok, isSimilar_nil_left] at h1
      exact Bool.false_ne_true h1
  exact ⟨isSimilar_nil_left, hs, hm, by simp [classifyResponse, hm]⟩

theorem C15_empty_tokens_fail_witness :
    (∀ w ∈ positiveWords, w ≠ [] ∧ w.head? ≠ some 0) ∧
      (∀ token ∈ tokenize [space, space], token = []) ∧
      (∀ w : CStr, isSimilar [] w defaultThreshold = false) ∧
      (∀ w ∈ positiveWords, strcasecmp [] w ≠ 0) ∧
      matchPositive [space, space] positiveWords = false ∧
      classifyResponse [space, space] positiveWords = utf8 "否定" :=
  have h1 : ∀ w ∈ positiveWords, w ≠ [] ∧ w.head? ≠ some 0 := by decide
  have h2 : ∀ token ∈ tokenize [space, space], token = [] := by decide
  ⟨h1, h2, C15_empty_tokens_fail [space, space] positiveWords h1 h2⟩

/-- C16: for a non-empty string `s` whose adjacent bytes differ after
`tolower` and a byte `c` that differs after `tolower` from the first byte of
`s`, no position of `s` and `c` followed by `s` matches, and `isSimilar` under
the default threshold is false. -/
theorem C16_shifted_is_dissimilar (s : CStr) (c : Byte) (hs : s ≠ [])
    (hadj : ∀ i, i + 1 < s.length → tolower (s.getD i 0) ≠ tolower (s.getD (i + 1) 0))
    (hc : tolower c ≠ tolower (s.getD 0 0)) :
    countMatches s (c :: s) = 0 ∧ isSimilar s (c :: s) defaultThreshold = false := by
  have h0 : countMatches s (c :: s) = 0 := by
    rw [countMatches_eq_filter, List.length_eq_zero, List.filter_eq_nil_iff]
    intro i hi
    have hi2 : i < s.length := by
      have := List.mem_range.mp hi
      simp at this
      omega
    simp only [decide_eq_true_eq]
    cases i with
    | zero => simpa using (Ne.symm hc)
    | succ j =>
      have := hadj j hi2
      simpa using (Ne.symm this)
  exact ⟨h0, isSimilar_of_no_match s (c :: s) defaultThreshold defaultThreshold_pos h0⟩

theorem C16_shifted_is_dissimilar_witness :
    utf8 "abc" ≠ [] ∧
      countMatches (utf8 "abc") (utf8 "xabc") = 0 ∧
      isSimilar (utf8 "abc") (utf8 "xabc") defaultThreshold = false :=
  have hadj : ∀ i, i + 1 < (utf8 "abc").length →
      tolower ((utf8 "abc").getD i 0) ≠ tolower ((utf8 "abc").getD (i + 1) 0) := by
    intro i hi
    have h3 : (utf8 "abc").length = 3 := by decide
    rw [h3] at hi
    have hi2 : i < 2 := by omega
    interval_cases i <;> decide
  ⟨by decide, C16_shifted_is_dissimilar (utf8 "abc") 120 (by decide) hadj (by decide)⟩

/-- A non-empty string is similar, under the default threshold, to every
string that is case-insensitively equal to it. -/
theorem isSimilar_of_caseInsensitiveEq (a b : CStr) (ha : a ≠ [])
    (h : caseInsensitiveEq a b) : isSimilar a b defaultThreshold = true := by
  obtain ⟨hlen, hall⟩ := h
  have hpos : 0 < a.length := List.length_pos.mpr ha
  have hc : countMatches a b = min a.length b.length :=
    (countMatches_eq_min_iff a b).mpr (fun i hi => hall i (by omega))
  refine isSimilar_of_all_match a b defaultThreshold defaultThreshold_le_one ?_ ?_
  · rw [← hlen, max_self]
    exact hpos
  · rw [hc, ← hlen, max_self, min_self]

/-- C18: for a text without NUL bytes and reference terms that are non-empty
and without NUL bytes, `matchPositive` is true exactly when some token and
some term are similar under the default threshold; and two strings without
NUL bytes that the exact pass matches but the fuzzy pass does not are both
empty. -/
theorem C18_exact_pass_subsumed (text : CStr) (terms : List CStr)
    (hText : (0 : Byte) ∉ text) (hTerms : ∀ term ∈ terms, term ≠ [] ∧ (0 : Byte) ∉ term) :
    (matchPositive text terms = true ↔
        ∃ token ∈ tokenize text, ∃ term ∈ terms,
          isSimilar token term defaultThreshold = true) ∧
      (∀ token term : CStr, (0 : Byte) ∉ token → (0 : Byte) ∉ term →
        strcasecmp token term = 0 → isSimilar token term defaultThreshold = false →
        token = [] ∧ term = []) := by
  have hpair : ∀ token term : CStr, (0 : Byte) ∉ token → (0 : Byte) ∉ term →
      strcasecmp token term = 0 → isSimilar token term defaultThreshold = false →
      token = [] ∧ term = [] := by
    intro token term h1 h2 h0 hs
    have hci := caseInsensitiveEq_of_strcasecmp token term h1 h2 h0
    by_cases hne : token = []
    · refine ⟨hne, ?_⟩
      have hl := hci.1
      rw [hne] at hl
      exact List.length_eq_zero.mp hl.symm
    · rw [isSimilar_of_caseInsensitiveEq token term hne hci] at hs
      exact absurd hs (by simp)
  refine ⟨?_, hpair⟩
  rw [matchPositive_eq_true_iff]
  constructor
  · rintro (⟨token, htok, term, hterm, h0⟩ | h)
    · refine ⟨token, htok, term, hterm, ?_⟩
      have hnul : (0 : Byte) ∉ token := by
        intro h0mem
        rw [tokenize_eq] at htok
        rcases mem_of_mem_tokensFrom text [] token 0 htok h0mem with h | h
        · simp at h
        · exact hText h
      by_contra hs
      have hs2 : isSimilar token term defaultThreshold = false := by simpa using hs
      exact (hTerms term hterm).1 (hpair token term hnul (hTerms term hterm).2 h0 hs2).2
    · exact h
  · exact fun h => Or.inr h

theorem C18_exact_pass_subsumed_witness :
    (0 : Byte) ∉ utf8 "well yes then" ∧
      (∀ term ∈ positiveWords, term ≠ [] ∧ (0 : Byte) ∉ term) ∧
      ((matchPositive (utf8 "well yes then") positiveWords = true ↔
        ∃ token ∈ tokenize (utf8 "well yes then"), ∃ term ∈ positiveWords,
          isSimilar token term defaultThreshold = true) ∧
      (∀ token term : CStr, (0 : Byte) ∉ token → (0 : Byte) ∉ term →
        strcasecmp token term = 0 → isSimilar token term defaultThreshold = false →
        token = [] ∧ term = [])) :=
  ⟨by decide, by decide,
    C18_exact_pass_subsumed (utf8 "well yes then") positiveWords (by decide) (by decide)⟩

/-- C19, as stated, fails for long strings: for `8947851` and `11184814`
bytes `a` the lengths satisfy `5 * min < 4 * max`, yet the binary32 quotient
rounds up to `0.8f` and `isSimilar` under the default threshold is true. -/
theorem C19_length_gap_counterexample :
    5 * min (List.replicate 8947851 (97 : Byte)).length
          (List.replicate 11184814 (97 : Byte)).length <
        4 * max (List.replicate 8947851 (97 : Byte)).length
          (List.replicate 11184814 (97 : Byte)).length ∧
      isSimilar (List.replicate 8947851 97) (List.replicate 11184814 97) defaultThreshold =
        true := by
  refine ⟨?_, ?_⟩
  · rw [List.length_replicate, List.length_replicate]
    norm_num
  · rw [isSimilar_default_replicate 97 8947851 11184814 (by norm_num)]
    decide

/-- C19 (amended): for strings shorter than `11184814` bytes with
`5 * min(len a, len b) < 4 * max(len a, len b)`, `isSimilar a b` under the
default threshold is false whatever the bytes are. -/
theorem C19_length_gap (a b : CStr) (hlen : max a.length b.length < 11184814)
    (h : 5 * min a.length b.length < 4 * max a.length b.length) :
    isSimilar a b defaultThreshold = false := by
  have hle := countMatches_le a b
  rw [isSimilar_default_small a b hlen]
  simp only [decide_eq_false_iff_not, not_and, not_le]
  intro _
  omega

theorem C19_length_gap_witness :
    max (utf8 "abcd").length (utf8 "abcdef").length < 11184814 ∧
      5 * min (utf8 "abcd").length (utf8 "abcdef").length <
        4 * max (utf8 "abcd").length (utf8 "abcdef").length ∧
      isSimilar (utf8 "abcd") (utf8 "abcdef") defaultThreshold = false ∧
      isSimilar (utf8 "abcd") (utf8 "abcde") defaultThreshold = true :=
  ⟨by decide, by decide,
    C19_length_gap (utf8 "abcd") (utf8 "abcdef") (by decide) (by decide),
    by rw [isSimilar_default]; decide⟩

theorem countMatches_comm (a b : CStr) : countMatches a b = countMatches b a := by
  rw [countMatches_eq_filter, countMatches_eq_filter, min_comm]
  congr 1
  apply List.filter_congr
  intro i _
  simp only [eq_comm]

/-- C20: `isSimilar` is symmetric in its two strings, for every threshold. -/
theorem C20_isSimilar_symm (a b : CStr) (t : ℚ) : isSimilar a b t = isSimilar b a t := by
  simp only [isSimilar, ratio, countMatches_comm a b, max_comm a.length b.length]

end MatchWords
